import Mathlib

/-!
Verification development for the MUJICA knowledge-base data layer.

The definitions below are a shallow embedding of the Python sources:
  - `src/data_engine/chunker.py`  (text chunking)
  - `src/utils/llm.py`            (batched embedding client with retry)
  - `src/data_engine/storage.py`  (metadata upsert, ingest, vector tables)

Texts are modelled as lists of characters; the token encoding used by the
chunker is modelled as one unit per character (the character-fallback path
of `chunk_text` has exactly this structure, and the token path is the same
loop over the encoded unit list).  Embedding vectors are opaque integer
lists; the external embedding service is an oracle parameter.
-/

namespace Mujica

/-! ## Chunker (src/data_engine/chunker.py)

`chunk_text(text, max_tokens, overlap_tokens)`:
  - strips the input; empty result gives `[]`;
  - clamps `max_tokens` to at least 50, clamps `overlap_tokens` to
    `max_tokens / 5` when it is not below `max_tokens`;
  - a text of at most `max_tokens` units is returned whole;
  - otherwise a window of `max_tokens` units slides by
    `max_tokens - overlap_tokens`, each window is stripped and emitted
    when non-empty, and the loop stops once a window reaches the end.

The while-loop is written with explicit fuel; `tokens.length` units of
fuel are always sufficient because each step advances the window start
by at least one unit. -/

def isWs (c : Char) : Bool := c.isWhitespace

/-- Python `str.strip()`: drop leading and trailing whitespace. -/
def stripChars (l : List Char) : List Char :=
  ((l.dropWhile isWs).reverse.dropWhile isWs).reverse

/-- The chunking while-loop of `chunk_text` (lines 36-46 / 54-64). -/
def chunkGo (tokens : List Char) (M ov : Nat) : Nat → Nat → List (List Char)
  | _, 0 => []
  | start, fuel + 1 =>
    if start < tokens.length then
      let e := min (start + M) tokens.length
      let c := stripChars ((tokens.drop start).take (e - start))
      let rest := if tokens.length ≤ e then [] else chunkGo tokens M ov (e - ov) fuel
      if c = [] then rest else c :: rest
    else []

/-- `chunk_text` from `src/data_engine/chunker.py`. -/
def chunk_text (text : List Char) (maxTokens overlapTokens : Nat) : List (List Char) :=
  let t := stripChars text
  if t = [] then []
  else
    let M := max 50 maxTokens
    let ov := if M ≤ overlapTokens then M / 5 else overlapTokens
    if t.length ≤ M then [t]
    else chunkGo t M ov 0 t.length

/-- The index windows `[start, end)` visited by the chunking loop. -/
def chunkWindowsGo (n M ov : Nat) : Nat → Nat → List (Nat × Nat)
  | _, 0 => []
  | start, fuel + 1 =>
    if start < n then
      let e := min (start + M) n
      (start, e) :: (if n ≤ e then [] else chunkWindowsGo n M ov (e - ov) fuel)
    else []

def chunkWindows (n M ov : Nat) : List (Nat × Nat) := chunkWindowsGo n M ov 0 n

/-- The clamped window size used by `chunk_text`. -/
def clampM (maxTokens : Nat) : Nat := max 50 maxTokens

/-- The clamped overlap used by `chunk_text`. -/
def clampOv (maxTokens overlapTokens : Nat) : Nat :=
  if clampM maxTokens ≤ overlapTokens then clampM maxTokens / 5 else overlapTokens

theorem clampOv_lt_clampM (maxTokens overlapTokens : Nat) :
    clampOv maxTokens overlapTokens < clampM maxTokens := by
  unfold clampOv clampM
  split
  · have h0 : (0:Nat) < max 50 maxTokens := lt_of_lt_of_le (by norm_num) (le_max_left _ _)
    exact Nat.div_lt_self h0 (by norm_num)
  · omega

/-! ### Strip lemmas -/

theorem dropWhile_head_false {p : α → Bool} {l : List α} :
    ∀ x ∈ (l.dropWhile p).head?, p x = false := by
  induction l with
  | nil => simp
  | cons a l ih =>
    intro x hx
    rw [List.dropWhile_cons] at hx
    cases hpa : p a with
    | true => exact ih x (by simpa [hpa] using hx)
    | false =>
      have hxa : a = x := by simpa [hpa] using hx
      subst hxa
      exact hpa

theorem dropWhile_eq_self_of_head {p : α → Bool} {l : List α}
    (h : ∀ x ∈ l.head?, p x = false) : l.dropWhile p = l := by
  cases l with
  | nil => rfl
  | cons a l =>
    have : p a = false := h a (by simp)
    simp [List.dropWhile_cons, this]

theorem dropWhile_idem {p : α → Bool} (l : List α) :
    (l.dropWhile p).dropWhile p = l.dropWhile p :=
  dropWhile_eq_self_of_head (dropWhile_head_false)

theorem dropWhile_eq_drop {p : α → Bool} (l : List α) :
    ∃ k, l.dropWhile p = l.drop k := by
  induction l with
  | nil => exact ⟨0, rfl⟩
  | cons a l ih =>
    by_cases h : p a
    · obtain ⟨k, hk⟩ := ih
      exact ⟨k + 1, by simp [List.dropWhile_cons, h, hk]⟩
    · exact ⟨0, by simp [List.dropWhile_cons, h]⟩

theorem stripChars_reverse_dropWhile (l : List Char) :
    (stripChars l).reverse.dropWhile isWs = (stripChars l).reverse := by
  unfold stripChars
  rw [List.reverse_reverse]
  exact dropWhile_idem _

theorem stripChars_head_false (l : List Char) :
    ∀ x ∈ (stripChars l).head?, isWs x = false := by
  unfold stripChars
  intro x hx
  obtain ⟨k, hk⟩ := @dropWhile_eq_drop Char isWs (l.dropWhile isWs).reverse
  rw [hk, List.reverse_drop] at hx
  rw [List.head?_take] at hx
  split at hx
  · simp at hx
  · rw [List.reverse_reverse] at hx
    exact dropWhile_head_false x hx

theorem stripChars_dropWhile (l : List Char) :
    (stripChars l).dropWhile isWs = stripChars l :=
  dropWhile_eq_self_of_head (stripChars_head_false l)

theorem stripChars_idem (l : List Char) : stripChars (stripChars l) = stripChars l := by
  calc stripChars (stripChars l)
      = (((stripChars l).dropWhile isWs).reverse.dropWhile isWs).reverse := rfl
    _ = ((stripChars l).reverse.dropWhile isWs).reverse := by rw [stripChars_dropWhile]
    _ = ((stripChars l).reverse).reverse := by rw [stripChars_reverse_dropWhile]
    _ = stripChars l := List.reverse_reverse _

theorem stripChars_eq_nil_iff (l : List Char) :
    stripChars l = [] ↔ ∀ c ∈ l, isWs c = true := by
  unfold stripChars
  rw [List.reverse_eq_nil_iff, List.dropWhile_eq_nil_iff]
  constructor
  · intro h c hc
    have hsplit := List.takeWhile_append_dropWhile isWs l
    rw [← hsplit] at hc
    rcases List.mem_append.mp hc with h1 | h1
    · exact List.mem_takeWhile_imp h1
    · exact h c (List.mem_reverse.mpr h1)
  · intro h c hc
    have : c ∈ l.dropWhile isWs := List.mem_reverse.mp hc
    have : c ∈ l := by
      have hsplit := List.takeWhile_append_dropWhile isWs l
      rw [← hsplit]; exact List.mem_append.mpr (Or.inr this)
    exact h c this

theorem stripChars_take_ne_nil {l : List Char} (hl : stripChars l = l) (hne : l ≠ [])
    {m : Nat} (hm : 0 < m) : stripChars (l.take m) ≠ [] := by
  intro hcon
  rw [stripChars_eq_nil_iff] at hcon
  cases l with
  | nil => exact hne rfl
  | cons a l =>
    have ha : isWs a = false := by
      have := stripChars_head_false (a :: l)
      rw [hl] at this
      exact this a (by simp)
    have : isWs a = true := by
      apply hcon
      cases m with
      | zero => omega
      | succ m => simp [List.take_succ_cons]
    simp [this] at ha

theorem stripChars_getLast_false (l : List Char) :
    ∀ x ∈ (stripChars l).getLast?, isWs x = false := by
  intro x hx
  rw [List.getLast?_eq_head?_reverse] at hx
  have h := stripChars_reverse_dropWhile l
  have : ∀ y ∈ (stripChars l).reverse.head?, isWs y = false := by
    intro y hy
    rw [← h] at hy
    exact dropWhile_head_false y hy
  exact this x hx

theorem stripChars_drop_ne_nil {l : List Char} (hl : stripChars l = l)
    {s : Nat} (hs : s < l.length) : stripChars (l.drop s) ≠ [] := by
  intro hcon
  rw [stripChars_eq_nil_iff] at hcon
  have hne : l ≠ [] := by
    intro h; subst h; simp at hs
  have hlast : isWs (l.getLast hne) = false := by
    have := stripChars_getLast_false l
    rw [hl] at this
    exact this _ (by rw [List.getLast?_eq_getLast l hne]; rfl)
  have hmem : l.getLast hne ∈ l.drop s := by
    have h1 : l.drop s ≠ [] := by
      intro h
      have := List.drop_eq_nil_iff.mp h
      omega
    have h2 : (l.drop s).getLast h1 = l.getLast hne := by
      rw [List.getLast_drop]
    rw [← h2]
    exact List.getLast_mem h1
  have := hcon _ hmem
  simp [this] at hlast

/-! ### Window lemmas for the chunking loop -/

theorem chunkWindowsGo_mem (n M ov : Nat) :
    ∀ fuel start, ∀ p ∈ chunkWindowsGo n M ov start fuel,
      p.2 = min (p.1 + M) n ∧ p.1 < n := by
  intro fuel
  induction fuel with
  | zero => intro start p hp; simp [chunkWindowsGo] at hp
  | succ f ih =>
    intro start p hp
    simp only [chunkWindowsGo] at hp
    by_cases hs : start < n
    · rw [if_pos hs] at hp
      rcases List.mem_cons.mp hp with rfl | hp'
      · exact ⟨rfl, hs⟩
      · by_cases hend : n ≤ min (start + M) n
        · rw [if_pos hend] at hp'; simp at hp'
        · rw [if_neg hend] at hp'
          exact ih _ p hp'
    · rw [if_neg hs] at hp; simp at hp

theorem chunkWindowsGo_head (n M ov start fuel : Nat) (hf : 0 < fuel) (hs : start < n) :
    (chunkWindowsGo n M ov start fuel).head? = some (start, min (start + M) n) := by
  cases fuel with
  | zero => omega
  | succ f =>
    simp only [chunkWindowsGo]
    rw [if_pos hs]
    rfl

theorem chunkWindowsGo_getLast (n M ov : Nat) (hov : ov < M) :
    ∀ fuel start, n - start ≤ fuel → start < n →
      ∃ s, (chunkWindowsGo n M ov start fuel).getLast? = some (s, n) := by
  intro fuel
  induction fuel with
  | zero => intro start h1 h2; omega
  | succ f ih =>
    intro start h1 h2
    simp only [chunkWindowsGo]
    rw [if_pos h2]
    by_cases hend : n ≤ min (start + M) n
    · rw [if_pos hend]
      have hmin : min (start + M) n = n := by omega
      exact ⟨start, by rw [hmin]; rfl⟩
    · rw [if_neg hend]
      have he : min (start + M) n = start + M := by omega
      obtain ⟨s, hs⟩ := ih (min (start + M) n - ov) (by omega) (by omega)
      refine ⟨s, ?_⟩
      rw [show ((start, min (start + M) n) :: chunkWindowsGo n M ov (min (start + M) n - ov) f)
            = [(start, min (start + M) n)] ++ chunkWindowsGo n M ov (min (start + M) n - ov) f
          from rfl]
      rw [List.getLast?_append, hs]
      rfl

theorem chunkWindowsGo_chain (n M ov : Nat) (hov : ov < M) :
    ∀ fuel start, List.Chain' (fun a b => a.2 = a.1 + M ∧ b.1 + ov = a.2)
      (chunkWindowsGo n M ov start fuel) := by
  intro fuel
  induction fuel with
  | zero => intro start; simp [chunkWindowsGo]
  | succ f ih =>
    intro start
    simp only [chunkWindowsGo]
    by_cases hs : start < n
    · rw [if_pos hs]
      by_cases hend : n ≤ min (start + M) n
      · rw [if_pos hend]; exact List.chain'_singleton _
      · rw [if_neg hend]
        rw [List.chain'_cons']
        refine ⟨?_, ih _⟩
        intro y hy
        cases f with
        | zero => simp [chunkWindowsGo] at hy
        | succ f2 =>
          rw [chunkWindowsGo_head n M ov _ _ (Nat.succ_pos _) (by omega)] at hy
          have hy' : (min (start + M) n - ov, min (min (start + M) n - ov + M) n) = y := by
            simpa using hy
          subst hy'
          refine ⟨?_, ?_⟩
          · show min (start + M) n = start + M
            omega
          · show (min (start + M) n - ov) + ov = min (start + M) n
            omega
    · rw [if_neg hs]; exact List.chain'_nil

theorem chunkWindowsGo_cover (n M ov : Nat) (hov : ov < M) :
    ∀ fuel start, n - start ≤ fuel → start < n →
      ∀ j, start ≤ j → j < n →
        ∃ p ∈ chunkWindowsGo n M ov start fuel, p.1 ≤ j ∧ j < p.2 := by
  intro fuel
  induction fuel with
  | zero => intro start h1 h2; omega
  | succ f ih =>
    intro start h1 h2 j hj1 hj2
    simp only [chunkWindowsGo]
    rw [if_pos h2]
    by_cases hje : j < min (start + M) n
    · exact ⟨(start, min (start + M) n), List.mem_cons_self _ _, hj1, hje⟩
    · have hlt : ¬ n ≤ min (start + M) n := by omega
      rw [if_neg hlt]
      obtain ⟨p, hp, hp2⟩ := ih (min (start + M) n - ov) (by omega) (by omega) j (by omega) hj2
      exact ⟨p, List.mem_cons_of_mem _ hp, hp2⟩

/-- The fragment a window contributes: the stripped slice, skipped when empty. -/
def fragOf (tokens : List Char) (p : Nat × Nat) : Option (List Char) :=
  if stripChars ((tokens.drop p.1).take (p.2 - p.1)) = [] then none
  else some (stripChars ((tokens.drop p.1).take (p.2 - p.1)))

theorem chunkGo_eq_filterMap (tokens : List Char) (M ov : Nat) :
    ∀ fuel start, chunkGo tokens M ov start fuel
      = (chunkWindowsGo tokens.length M ov start fuel).filterMap (fragOf tokens) := by
  intro fuel
  induction fuel with
  | zero => intro start; simp [chunkGo, chunkWindowsGo]
  | succ f ih =>
    intro start
    simp only [chunkGo, chunkWindowsGo]
    by_cases hs : start < tokens.length
    · rw [if_pos hs, if_pos hs, List.filterMap_cons]
      by_cases hc :
          stripChars ((tokens.drop start).take (min (start + M) tokens.length - start)) = []
      · rw [if_pos hc]
        rw [show fragOf tokens (start, min (start + M) tokens.length) = none by
          simp [fragOf, hc]]
        by_cases hend : tokens.length ≤ min (start + M) tokens.length
        · simp [hend]
        · simp only [if_neg hend]
          exact ih _
      · rw [if_neg hc]
        rw [show fragOf tokens (start, min (start + M) tokens.length)
              = some (stripChars ((tokens.drop start).take
                  (min (start + M) tokens.length - start))) by
          simp [fragOf, hc]]
        by_cases hend : tokens.length ≤ min (start + M) tokens.length
        · simp [hend]
        · simp only [if_neg hend]
          rw [ih _]
    · rw [if_neg hs, if_neg hs]
      simp

theorem filterMap_getLast_of_some {α β : Type _} {f : α → Option β} {l : List α} {a : α} {y : β}
    (hl : l.getLast? = some a) (hf : f a = some y) : (l.filterMap f).getLast? = some y := by
  have hne : l ≠ [] := by intro h; subst h; simp at hl
  have ha : a = l.getLast hne := by
    have := List.getLast?_eq_getLast l hne
    rw [this] at hl
    exact (Option.some.injEq _ _ ▸ hl.symm :)
  obtain ⟨l', hl'⟩ : ∃ l', l = l' ++ [a] := ⟨l.dropLast, by rw [ha]; exact (List.dropLast_append_getLast hne).symm⟩
  rw [hl', List.filterMap_append]
  have : List.filterMap f [a] = [y] := by simp [hf]
  rw [this, List.getLast?_append]
  rfl

theorem mem_of_getLast? {α : Type _} {l : List α} {a : α} (h : l.getLast? = some a) :
    a ∈ l := by
  have hne : l ≠ [] := by intro hx; subst hx; simp at h
  rw [List.getLast?_eq_getLast l hne] at h
  have : a = l.getLast hne := by
    exact (Option.some.injEq _ _ ▸ h.symm :)
  rw [this]
  exact List.getLast_mem hne

/-- The index windows visited by `chunk_text text maxTokens overlapTokens`. -/
def chunkTextWindows (text : List Char) (maxTokens overlapTokens : Nat) : List (Nat × Nat) :=
  chunkWindowsGo (stripChars text).length (clampM maxTokens) (clampOv maxTokens overlapTokens)
    0 (stripChars text).length

theorem chunk_text_long_eq (text : List Char) (maxTokens overlapTokens : Nat)
    (h : clampM maxTokens < (stripChars text).length) :
    chunk_text text maxTokens overlapTokens =
      chunkGo (stripChars text) (clampM maxTokens) (clampOv maxTokens overlapTokens)
        0 (stripChars text).length := by
  have hne : stripChars text ≠ [] := by
    intro hnil
    rw [hnil] at h
    simp [clampM] at h
  have hgt : ¬ (stripChars text).length ≤ max 50 maxTokens := by
    simp only [clampM] at h
    omega
  simp only [chunk_text, clampM, clampOv]
  rw [if_neg hne, if_neg hgt]

/-- Claim C9.  `chunk_text` on whitespace-only or empty input yields `[]`;
on input whose measured (stripped) size is at most `max_tokens` it yields
exactly the singleton list holding the stripped text.  Determinism is
inherent: `chunk_text` is a pure function of its arguments. -/
theorem chunk_text_small_input (text : List Char) (maxTokens overlapTokens : Nat) :
    ((∀ c ∈ text, isWs c = true) → chunk_text text maxTokens overlapTokens = [])
    ∧ ((stripChars text).length ≤ maxTokens → stripChars text ≠ [] →
        chunk_text text maxTokens overlapTokens = [stripChars text]) := by
  constructor
  · intro h
    have hnil : stripChars text = [] := (stripChars_eq_nil_iff text).mpr h
    simp only [chunk_text]
    rw [if_pos hnil]
  · intro hlen hne
    have hle : (stripChars text).length ≤ max 50 maxTokens :=
      le_trans hlen (le_max_right _ _)
    simp only [chunk_text]
    rw [if_neg hne, if_pos hle]

theorem chunk_text_small_input_witness :
    chunk_text [' ', ' '] 350 60 = [] ∧ chunk_text ['h', 'i'] 350 60 = [['h', 'i']] :=
  ⟨(chunk_text_small_input [' ', ' '] 350 60).1 (by decide),
   (chunk_text_small_input ['h', 'i'] 350 60).2 (by decide) (by decide)⟩

/-- Counterexample to claim C8 as stated: with `max_size = 1` and
`overlap = 0` (which after overlap clamping satisfies `overlap < max_size`)
the text "ab" measures 2 > 1 units, yet the emitted fragment spans 2 units,
so no window of `max_size = 1` units was used: the implementation first
clamps `max_size` up to 50 (`max_tokens = max(50, int(max_tokens))`). -/
theorem chunk_text_window_exceeds_requested_max :
    1 < (stripChars ['a', 'b']).length ∧ clampOv 1 0 < 1 ∧
    ∃ c ∈ chunk_text ['a', 'b'] 1 0, 1 < c.length := by decide

/-- Claim C8 (amended: the window size is the clamped `max(50, max_size)`).
For a stripped text longer than the clamped window size `M`, the loop
visits windows that: start at 0 with width `M`; all have the form
`[s, min (s + M) n)`; advance so that each full window has width exactly
`M` and the next window starts `overlap` units before the current end;
cover every index of the text; and end with a window reaching the text
end, whose stripped fragment (which reaches the end of the text) is the
last emitted chunk.  Every emitted chunk is the stripped content of its
window, non-empty and trimmed. -/
theorem chunk_text_sliding_window (text : List Char) (maxTokens overlapTokens : Nat)
    (hlong : clampM maxTokens < (stripChars text).length) :
    (chunkTextWindows text maxTokens overlapTokens).head? = some (0, clampM maxTokens)
    ∧ (∀ p ∈ chunkTextWindows text maxTokens overlapTokens,
        p.2 = min (p.1 + clampM maxTokens) (stripChars text).length
          ∧ p.1 < (stripChars text).length)
    ∧ List.Chain'
        (fun a b => a.2 = a.1 + clampM maxTokens ∧ b.1 + clampOv maxTokens overlapTokens = a.2)
        (chunkTextWindows text maxTokens overlapTokens)
    ∧ (∀ j < (stripChars text).length,
        ∃ p ∈ chunkTextWindows text maxTokens overlapTokens, p.1 ≤ j ∧ j < p.2)
    ∧ (∃ s, (chunkTextWindows text maxTokens overlapTokens).getLast?
            = some (s, (stripChars text).length)
        ∧ (chunk_text text maxTokens overlapTokens).getLast?
            = some (stripChars ((stripChars text).drop s)))
    ∧ chunk_text text maxTokens overlapTokens
        = (chunkTextWindows text maxTokens overlapTokens).filterMap (fragOf (stripChars text))
    ∧ (∀ c ∈ chunk_text text maxTokens overlapTokens, c ≠ [] ∧ stripChars c = c) := by
  have hov := clampOv_lt_clampM maxTokens overlapTokens
  have hn : 0 < (stripChars text).length := by
    have : 0 < clampM maxTokens := lt_of_lt_of_le (by norm_num) (le_max_left 50 maxTokens)
    omega
  have heq := chunk_text_long_eq text maxTokens overlapTokens hlong
  have hfm := chunkGo_eq_filterMap (stripChars text) (clampM maxTokens)
    (clampOv maxTokens overlapTokens) (stripChars text).length 0
  have hchunk : chunk_text text maxTokens overlapTokens
      = (chunkTextWindows text maxTokens overlapTokens).filterMap (fragOf (stripChars text)) := by
    rw [heq, hfm]; rfl
  refine ⟨?_, ?_, ?_, ?_, ?_, hchunk, ?_⟩
  · rw [chunkTextWindows, chunkWindowsGo_head _ _ _ _ _ hn hn]
    congr 2
    omega
  · intro p hp
    exact chunkWindowsGo_mem _ _ _ _ _ p hp
  · exact chunkWindowsGo_chain _ _ _ hov _ _
  · intro j hj
    exact chunkWindowsGo_cover _ _ _ hov _ _ (by omega) hn j (Nat.zero_le j) hj
  · obtain ⟨s, hs⟩ := chunkWindowsGo_getLast (stripChars text).length (clampM maxTokens)
      (clampOv maxTokens overlapTokens) hov (stripChars text).length 0 (by omega) hn
    refine ⟨s, hs, ?_⟩
    have hmem : (s, (stripChars text).length) ∈ chunkTextWindows text maxTokens overlapTokens :=
      mem_of_getLast? hs
    have hsn : s < (stripChars text).length :=
      (chunkWindowsGo_mem _ _ _ _ _ _ hmem).2
    have hslice : ((stripChars text).drop s).take ((stripChars text).length - s)
        = (stripChars text).drop s := by
      apply List.take_of_length_le
      rw [List.length_drop]
    have hfrag : fragOf (stripChars text) (s, (stripChars text).length)
        = some (stripChars ((stripChars text).drop s)) := by
      simp only [fragOf]
      rw [hslice]
      rw [if_neg (stripChars_drop_ne_nil (stripChars_idem text) hsn)]
    rw [hchunk]
    exact filterMap_getLast_of_some hs hfrag
  · intro c hc
    rw [hchunk] at hc
    obtain ⟨p, hp, hfp⟩ := List.mem_filterMap.mp hc
    simp only [fragOf] at hfp
    split at hfp
    · exact absurd hfp (by simp)
    · have hc' : c = stripChars (((stripChars text).drop p.1).take (p.2 - p.1)) := by
        exact (Option.some.injEq _ _ ▸ hfp.symm :)
      constructor
      · rw [hc']
        assumption
      · rw [hc', stripChars_idem]

/-- A 60-character text used to instantiate the sliding-window theorem. -/
def txt60 : List Char := List.replicate 60 'a'

theorem chunk_text_sliding_window_witness :
    clampM 50 < (stripChars txt60).length ∧
    ((chunkTextWindows txt60 50 10).head? = some (0, clampM 50)
    ∧ (∀ p ∈ chunkTextWindows txt60 50 10,
        p.2 = min (p.1 + clampM 50) (stripChars txt60).length
          ∧ p.1 < (stripChars txt60).length)
    ∧ List.Chain'
        (fun a b => a.2 = a.1 + clampM 50 ∧ b.1 + clampOv 50 10 = a.2)
        (chunkTextWindows txt60 50 10)
    ∧ (∀ j < (stripChars txt60).length,
        ∃ p ∈ chunkTextWindows txt60 50 10, p.1 ≤ j ∧ j < p.2)
    ∧ (∃ s, (chunkTextWindows txt60 50 10).getLast?
            = some (s, (stripChars txt60).length)
        ∧ (chunk_text txt60 50 10).getLast?
            = some (stripChars ((stripChars txt60).drop s)))
    ∧ chunk_text txt60 50 10
        = (chunkTextWindows txt60 50 10).filterMap (fragOf (stripChars txt60))
    ∧ (∀ c ∈ chunk_text txt60 50 10, c ≠ [] ∧ stripChars c = c)) :=
  ⟨by decide, chunk_text_sliding_window txt60 50 10 (by decide)⟩

/-! ## Metadata store (SQLite tables `papers` and `reviews`;
`KnowledgeBase._upsert_paper_and_reviews` and `KnowledgeBase.get_reviews`
in `src/data_engine/storage.py`)

A paper record arriving at the ingest layer is a loosely-typed dict;
fields that the code reads with `p.get(k) or ""` are modelled as plain
strings (None and "" are conflated by the code itself), fields for which
the SQL distinguishes NULL from '' are modelled as `Option String`.
A review list element that is not a dict is skipped by the code but still
consumes its enumeration index; such elements are modelled as `none`. -/

def stripStr (s : String) : String := String.mk (stripChars s.data)

structure ReviewInput where
  rating : Option ℚ := none
  rating_raw : Option String := none
  confidence : Option ℚ := none
  confidence_raw : Option String := none
  summary : Option String := none
  strengths : Option String := none
  weaknesses : Option String := none
  text : Option String := none
deriving DecidableEq

structure PaperInput where
  id : String := ""
  title : String := ""
  abstract : String := ""
  tldr : String := ""
  authors : List String := []
  keywords : List String := []
  year : Option Int := none
  venue_id : Option String := none
  forum : Option String := none
  number : Option Int := none
  pdf_url : Option String := none
  pdf_path : Option String := none
  decision : Option String := none
  decision_text : Option String := none
  rebuttal_text : Option String := none
  presentation : Option String := none
  rating : Option ℚ := none
  content : String := ""
  reviews : Option (List (Option ReviewInput)) := none
deriving DecidableEq

/-- A row of the SQLite `papers` table. `raw_json` stores the full input
record (the serialized dict). -/
structure PaperRow where
  title : String
  abstract : String
  tldr : String
  authors_json : List String
  keywords_json : List String
  year : Option Int
  venue_id : Option String
  forum : Option String
  number : Option Int
  pdf_url : Option String
  pdf_path : Option String
  decision : Option String
  decision_text : Option String
  rebuttal_text : Option String
  presentation : Option String
  rating : Option ℚ
  raw_json : PaperInput
deriving DecidableEq

/-- The `excluded` row of the INSERT statement (storage.py lines 736-755). -/
def excludedRow (p : PaperInput) : PaperRow where
  title := stripStr p.title
  abstract := stripStr p.abstract
  tldr := stripStr p.tldr
  authors_json := p.authors
  keywords_json := p.keywords
  year := p.year
  venue_id := p.venue_id
  forum := p.forum
  number := p.number
  pdf_url := p.pdf_url
  pdf_path := p.pdf_path
  decision := p.decision
  decision_text := p.decision_text
  rebuttal_text := p.rebuttal_text
  presentation := PaperInput.presentation p
  rating := p.rating
  raw_json := p

/-- SQL `COALESCE(excluded.f, papers.f)`. -/
def coalesce {α : Type _} (a b : Option α) : Option α :=
  match a with
  | some x => some x
  | none => b

/-- SQL `CASE WHEN excluded.f IS NOT NULL AND excluded.f <> '' THEN excluded.f ELSE papers.f END`. -/
def overwriteIfNonEmpty (nw old : Option String) : Option String :=
  match nw with
  | some v => if v ≠ "" then some v else old
  | none => old

/-- SQL `CASE WHEN excluded.f IS NOT NULL AND TRIM(excluded.f) <> '' THEN excluded.f ELSE papers.f END`. -/
def overwriteIfNonBlank (nw old : Option String) : Option String :=
  match nw with
  | some v => if stripStr v ≠ "" then some v else old
  | none => old

/-- The `ON CONFLICT(id) DO UPDATE SET` clause (storage.py lines 769-802). -/
def mergeRow (old nw : PaperRow) : PaperRow where
  title := nw.title
  abstract := nw.abstract
  tldr := nw.tldr
  authors_json := nw.authors_json
  keywords_json := nw.keywords_json
  year := coalesce nw.year old.year
  venue_id := coalesce nw.venue_id old.venue_id
  forum := coalesce nw.forum old.forum
  number := coalesce nw.number old.number
  pdf_url := overwriteIfNonEmpty nw.pdf_url old.pdf_url
  pdf_path := overwriteIfNonEmpty nw.pdf_path old.pdf_path
  decision := overwriteIfNonBlank nw.decision old.decision
  decision_text := overwriteIfNonBlank nw.decision_text old.decision_text
  rebuttal_text := overwriteIfNonBlank nw.rebuttal_text old.rebuttal_text
  presentation := coalesce (PaperRow.presentation nw) (PaperRow.presentation old)
  rating := coalesce nw.rating old.rating
  raw_json := nw.raw_json

def lookupPaper : List (String × PaperRow) → String → Option PaperRow
  | [], _ => none
  | (k, r) :: rest, pid => if k = pid then some r else lookupPaper rest pid

def setPaper : List (String × PaperRow) → String → PaperRow → List (String × PaperRow)
  | [], pid, r => [(pid, r)]
  | (k, r0) :: rest, pid, r =>
    if k = pid then (pid, r) :: rest else (k, r0) :: setPaper rest pid r

/-- A row of the SQLite `reviews` table (primary key `(paper_id, idx)`). -/
structure ReviewRow where
  paper_id : String
  idx : Nat
  rating : Option ℚ
  rating_raw : Option String
  confidence : Option ℚ
  confidence_raw : Option String
  summary : Option String
  strengths : Option String
  weaknesses : Option String
  text : Option String
  raw_json : ReviewInput
deriving DecidableEq

def mkReviewRow (pid : String) (i : Nat) (r : ReviewInput) : ReviewRow where
  paper_id := pid
  idx := i
  rating := r.rating
  rating_raw := r.rating_raw
  confidence := r.confidence
  confidence_raw := r.confidence_raw
  summary := r.summary
  strengths := r.strengths
  weaknesses := r.weaknesses
  text := r.text
  raw_json := r

/-- `for idx, r in enumerate(reviews): if not isinstance(r, dict): continue; INSERT ...`:
non-dict elements are skipped but still advance the enumeration index. -/
def buildReviewRows (pid : String) : Nat → List (Option ReviewInput) → List ReviewRow
  | _, [] => []
  | i, none :: rest => buildReviewRows pid (i + 1) rest
  | i, some r :: rest => mkReviewRow pid i r :: buildReviewRows pid (i + 1) rest

structure MetaState where
  papers : List (String × PaperRow)
  reviews : List ReviewRow
deriving DecidableEq

/-- `KnowledgeBase._upsert_paper_and_reviews` (storage.py lines 723-845).
`replaceEmptyReviews` is the `MUJICA_REPLACE_EMPTY_REVIEWS` flag; reviews
are replaced wholesale only when a (list-valued) review list is supplied
and it is non-empty or the flag is on. -/
def upsert_paper_and_reviews (replaceEmptyReviews : Bool) (st : MetaState) (p : PaperInput) :
    MetaState :=
  let pid := stripStr p.id
  if pid = "" then st
  else
    let nw := excludedRow p
    let papers' :=
      match lookupPaper st.papers pid with
      | none => st.papers ++ [(pid, nw)]
      | some old => setPaper st.papers pid (mergeRow old nw)
    let reviews' :=
      match p.reviews with
      | some rs =>
        if rs ≠ [] ∨ replaceEmptyReviews then
          st.reviews.filter (fun r => r.paper_id ≠ pid) ++ buildReviewRows pid 0 rs
        else st.reviews
      | none => st.reviews
    { papers := papers', reviews := reviews' }

/-- `KnowledgeBase.get_reviews`: `SELECT * FROM reviews WHERE paper_id = ?
ORDER BY idx ASC` (storage.py lines 915-922); the sort is modelled by a
stable insertion sort on `idx`. -/
def get_reviews (st : MetaState) (pid : String) : List ReviewRow :=
  if pid = "" then []
  else List.insertionSort (fun a b => a.idx ≤ b.idx) (st.reviews.filter (fun r => r.paper_id = pid))

def metaEmpty : MetaState := { papers := [], reviews := [] }

def applyUpserts (flag : Bool) (ops : List PaperInput) : MetaState :=
  ops.foldl (upsert_paper_and_reviews flag) metaEmpty

theorem lookupPaper_setPaper (l : List (String × PaperRow)) (pid : String) (r : PaperRow) :
    lookupPaper (setPaper l pid r) pid = some r := by
  induction l with
  | nil => simp [setPaper, lookupPaper]
  | cons kv rest ih =>
    obtain ⟨k, r0⟩ := kv
    by_cases h : k = pid
    · simp [setPaper, h, lookupPaper]
    · simp [setPaper, h, lookupPaper, ih]

/-- Claim C6.  Upserting a paper that is already stored replaces the
identity text fields unconditionally with the (stripped) new values,
while each provenance field keeps the stored value when the new value is
null or empty (for `decision`, `decision_text`, `rebuttal_text`:
whitespace-only also counts as empty, via SQL `TRIM`), and takes the new
value exactly when it is non-empty. -/
theorem upsert_paper_provenance (flag : Bool) (st : MetaState) (p : PaperInput)
    (old : PaperRow) (hpid : stripStr p.id ≠ "")
    (hold : lookupPaper st.papers (stripStr p.id) = some old) :
    ∃ merged,
      lookupPaper (upsert_paper_and_reviews flag st p).papers (stripStr p.id) = some merged
      ∧ merged.title = stripStr p.title
      ∧ merged.abstract = stripStr p.abstract
      ∧ merged.tldr = stripStr p.tldr
      ∧ merged.authors_json = p.authors
      ∧ merged.keywords_json = p.keywords
      ∧ (p.decision = none → merged.decision = old.decision)
      ∧ (∀ d, p.decision = some d → stripStr d = "" → merged.decision = old.decision)
      ∧ (∀ d, p.decision = some d → stripStr d ≠ "" → merged.decision = some d)
      ∧ (p.decision_text = none → merged.decision_text = old.decision_text)
      ∧ (∀ d, p.decision_text = some d → stripStr d = "" →
          merged.decision_text = old.decision_text)
      ∧ (∀ d, p.decision_text = some d → stripStr d ≠ "" → merged.decision_text = some d)
      ∧ (p.rebuttal_text = none → merged.rebuttal_text = old.rebuttal_text)
      ∧ (∀ d, p.rebuttal_text = some d → stripStr d = "" →
          merged.rebuttal_text = old.rebuttal_text)
      ∧ (∀ d, p.rebuttal_text = some d → stripStr d ≠ "" → merged.rebuttal_text = some d)
      ∧ (p.pdf_url = none → merged.pdf_url = old.pdf_url)
      ∧ (p.pdf_url = some "" → merged.pdf_url = old.pdf_url)
      ∧ (∀ u, p.pdf_url = some u → u ≠ "" → merged.pdf_url = some u)
      ∧ (p.pdf_path = none → merged.pdf_path = old.pdf_path)
      ∧ (p.pdf_path = some "" → merged.pdf_path = old.pdf_path)
      ∧ (∀ u, p.pdf_path = some u → u ≠ "" → merged.pdf_path = some u) := by
  refine ⟨mergeRow old (excludedRow p), ?_, ?_⟩
  · simp only [upsert_paper_and_reviews]
    rw [if_neg hpid, hold]
    exact lookupPaper_setPaper st.papers (stripStr p.id) (mergeRow old (excludedRow p))
  · refine ⟨rfl, rfl, rfl, rfl, rfl, ?_, ?_, ?_, ?_, ?_, ?_, ?_, ?_, ?_, ?_, ?_, ?_, ?_, ?_, ?_⟩
    · intro h; simp [mergeRow, excludedRow, overwriteIfNonBlank, h]
    · intro d hd hs; simp [mergeRow, excludedRow, overwriteIfNonBlank, hd, hs]
    · intro d hd hs; simp [mergeRow, excludedRow, overwriteIfNonBlank, hd, hs]
    · intro h; simp [mergeRow, excludedRow, overwriteIfNonBlank, h]
    · intro d hd hs; simp [mergeRow, excludedRow, overwriteIfNonBlank, hd, hs]
    · intro d hd hs; simp [mergeRow, excludedRow, overwriteIfNonBlank, hd, hs]
    · intro h; simp [mergeRow, excludedRow, overwriteIfNonBlank, h]
    · intro d hd hs; simp [mergeRow, excludedRow, overwriteIfNonBlank, hd, hs]
    · intro d hd hs; simp [mergeRow, excludedRow, overwriteIfNonBlank, hd, hs]
    · intro h; simp [mergeRow, excludedRow, overwriteIfNonEmpty, h]
    · intro h; simp [mergeRow, excludedRow, overwriteIfNonEmpty, h]
    · intro u hu hne; simp [mergeRow, excludedRow, overwriteIfNonEmpty, hu, hne]
    · intro h; simp [mergeRow, excludedRow, overwriteIfNonEmpty, h]
    · intro h; simp [mergeRow, excludedRow, overwriteIfNonEmpty, h]
    · intro u hu hne; simp [mergeRow, excludedRow, overwriteIfNonEmpty, hu, hne]

/-- A previously stored row and a re-ingest record used to instantiate the
upsert theorem: the re-fetch carries no decision and an empty pdf_url. -/
def oldRowW : PaperRow :=
  excludedRow
    { id := "p1"
      title := "Old"
      decision := some "Accept"
      pdf_url := some "http"
      pdf_path := some "loc.pdf" }

def stW : MetaState := { papers := [("p1", oldRowW)], reviews := [] }

def pW : PaperInput :=
  { id := "p1"
    title := "New"
    decision := some "  "
    pdf_url := some ""
    rebuttal_text := some "reb" }

theorem upsert_paper_provenance_witness :
    stripStr (PaperInput.id pW) ≠ "" ∧
    lookupPaper (MetaState.papers stW) (stripStr (PaperInput.id pW)) = some oldRowW ∧
    ∃ merged,
      lookupPaper (upsert_paper_and_reviews false stW pW).papers (stripStr (PaperInput.id pW))
        = some merged
      ∧ merged.title = stripStr (PaperInput.title pW)
      ∧ merged.decision = PaperRow.decision oldRowW
      ∧ merged.pdf_url = PaperRow.pdf_url oldRowW
      ∧ merged.rebuttal_text = some "reb" := by
  refine ⟨by decide, by decide, ?_⟩
  obtain ⟨merged, h1, h2, h3, h4, h5, h6, h7, h8, h9, h10, h11, h12, h13, h14, h15,
    h16, h17, h18, h19, h20, h21⟩ :=
    upsert_paper_provenance false stW pW oldRowW (by decide) (by decide)
  exact ⟨merged, h1, h2, h8 "  " rfl (by decide), h17 rfl, h15 "reb" rfl (by decide)⟩

/-! ### Review rows: ordering invariant and `get_reviews` -/

theorem buildReviewRows_mem (pid : String) :
    ∀ rs i, ∀ r ∈ buildReviewRows pid i rs, r.paper_id = pid ∧ i ≤ r.idx := by
  intro rs
  induction rs with
  | nil => intro i r hr; simp [buildReviewRows] at hr
  | cons o rest ih =>
    intro i r hr
    cases o with
    | none =>
      obtain ⟨h1, h2⟩ := ih (i + 1) r (by simpa [buildReviewRows] using hr)
      exact ⟨h1, by omega⟩
    | some q =>
      simp only [buildReviewRows] at hr
      rcases List.mem_cons.mp hr with rfl | hr'
      · exact ⟨rfl, le_refl _⟩
      · obtain ⟨h1, h2⟩ := ih (i + 1) r hr'
        exact ⟨h1, by omega⟩

theorem buildReviewRows_pairwise (pid : String) :
    ∀ rs i, List.Pairwise (fun a b => a.idx < b.idx) (buildReviewRows pid i rs) := by
  intro rs
  induction rs with
  | nil => intro i; simp [buildReviewRows]
  | cons o rest ih =>
    intro i
    cases o with
    | none => simpa [buildReviewRows] using ih (i + 1)
    | some q =>
      simp only [buildReviewRows]
      refine List.Pairwise.cons ?_ (ih (i + 1))
      intro b hb
      have h2 := (buildReviewRows_mem pid rest (i + 1) b hb).2
      show (mkReviewRow pid i q).idx < b.idx
      simp only [mkReviewRow]
      omega

/-- Invariant of the reviews table: no empty paper id, and per paper the
stored `idx` values are strictly increasing in table order. -/
def reviewsWf (tbl : List ReviewRow) : Prop :=
  (∀ r ∈ tbl, r.paper_id ≠ "") ∧
  ∀ pid, List.Pairwise (fun a b => a.idx < b.idx) (tbl.filter (fun r => r.paper_id = pid))

theorem upsert_reviews_eq (flag : Bool) (st : MetaState) (p : PaperInput)
    (hpid : stripStr p.id ≠ "") :
    (upsert_paper_and_reviews flag st p).reviews =
      match p.reviews with
      | some rs =>
        if rs ≠ [] ∨ flag then
          st.reviews.filter (fun r => r.paper_id ≠ stripStr p.id)
            ++ buildReviewRows (stripStr p.id) 0 rs
        else st.reviews
      | none => st.reviews := by
  simp only [upsert_paper_and_reviews]
  rw [if_neg hpid]

theorem reviewsWf_upsert (flag : Bool) (st : MetaState) (p : PaperInput)
    (h : reviewsWf st.reviews) :
    reviewsWf (upsert_paper_and_reviews flag st p).reviews := by
  by_cases hpid : stripStr p.id = ""
  · have hst : upsert_paper_and_reviews flag st p = st := by
      simp only [upsert_paper_and_reviews]
      rw [if_pos hpid]
    rw [hst]
    exact h
  · rw [upsert_reviews_eq flag st p hpid]
    split
    rotate_left
    · exact h
    rename_i rs heq
    · by_cases hcond : rs ≠ [] ∨ flag
      · rw [if_pos hcond]
        constructor
        · intro r hr
          rcases List.mem_append.mp hr with hr' | hr'
          · exact h.1 r (List.mem_of_mem_filter hr')
          · rw [(buildReviewRows_mem _ rs 0 r hr').1]
            exact hpid
        · intro q
          rw [List.filter_append]
          by_cases hq : q = stripStr p.id
          · subst hq
            have h1 : (st.reviews.filter (fun r => r.paper_id ≠ stripStr p.id)).filter
                (fun r => r.paper_id = stripStr p.id) = [] := by
              rw [List.filter_filter]
              apply List.filter_eq_nil_iff.mpr
              intro r hr
              simp only [Bool.and_eq_true, decide_eq_true_eq]
              tauto
            have h2 : (buildReviewRows (stripStr p.id) 0 rs).filter
                (fun r => r.paper_id = stripStr p.id) = buildReviewRows (stripStr p.id) 0 rs := by
              apply List.filter_eq_self.mpr
              intro r hr
              simp [(buildReviewRows_mem _ rs 0 r hr).1]
            rw [h1, h2, List.nil_append]
            exact buildReviewRows_pairwise _ rs 0
          · have h2 : (buildReviewRows (stripStr p.id) 0 rs).filter
                (fun r => r.paper_id = q) = [] := by
              apply List.filter_eq_nil_iff.mpr
              intro r hr
              simp only [(buildReviewRows_mem _ rs 0 r hr).1, decide_eq_true_eq]
              exact fun hx => hq hx.symm
            rw [h2, List.append_nil]
            have hsub : List.Sublist
                ((st.reviews.filter (fun r => r.paper_id ≠ stripStr p.id)).filter
                  (fun r => r.paper_id = q))
                (st.reviews.filter (fun r => r.paper_id = q)) :=
              List.Sublist.filter _ (List.filter_sublist _)
            exact (h.2 q).sublist hsub
      · rw [if_neg hcond]
        exact h

theorem reviewsWf_applyUpserts (flag : Bool) (ops : List PaperInput) :
    reviewsWf (applyUpserts flag ops).reviews := by
  suffices h : ∀ st, reviewsWf st.reviews →
      reviewsWf ((ops.foldl (upsert_paper_and_reviews flag) st)).reviews by
    refine h metaEmpty ⟨?_, ?_⟩ <;> simp [metaEmpty]
  induction ops with
  | nil => intro st h; exact h
  | cons p rest ih =>
    intro st h
    exact ih _ (reviewsWf_upsert flag st p h)

/-- Claim C10.  Over any metadata store built by upserts, `get_reviews`
returns exactly the stored rows of the requested paper, in strictly
increasing `idx` order, and the empty list when the paper has no stored
reviews. -/
theorem get_reviews_sorted_complete (flag : Bool) (ops : List PaperInput) (pid : String) :
    List.Chain' (fun a b => a.idx < b.idx) (get_reviews (applyUpserts flag ops) pid)
    ∧ (∀ r, r ∈ get_reviews (applyUpserts flag ops) pid ↔
        r ∈ (applyUpserts flag ops).reviews ∧ r.paper_id = pid)
    ∧ ((∀ r ∈ (applyUpserts flag ops).reviews, r.paper_id ≠ pid) →
        get_reviews (applyUpserts flag ops) pid = []) := by
  obtain ⟨hne, hpw⟩ := reviewsWf_applyUpserts flag ops
  by_cases hq : pid = ""
  · subst hq
    refine ⟨by simp [get_reviews], ?_, ?_⟩
    · intro r
      constructor
      · intro hr
        exact absurd hr (by simp [get_reviews])
      · rintro ⟨hr, hpid⟩
        exact absurd hpid (hne r hr)
    · intro hx
      simp [get_reviews]
  · have hsortle : List.Pairwise (fun a b : ReviewRow => a.idx ≤ b.idx)
        (List.insertionSort (fun a b => a.idx ≤ b.idx)
          ((applyUpserts flag ops).reviews.filter (fun r => r.paper_id = pid))) := by
      haveI : IsTotal ReviewRow (fun a b => a.idx ≤ b.idx) := ⟨fun a b => Nat.le_total _ _⟩
      haveI : IsTrans ReviewRow (fun a b => a.idx ≤ b.idx) :=
        ⟨fun a b c h1 h2 => Nat.le_trans h1 h2⟩
      exact List.sorted_insertionSort _ _
    have hperm := List.perm_insertionSort (fun a b : ReviewRow => a.idx ≤ b.idx)
      ((applyUpserts flag ops).reviews.filter (fun r => r.paper_id = pid))
    have hdist : List.Pairwise (fun a b : ReviewRow => a.idx ≠ b.idx)
        ((applyUpserts flag ops).reviews.filter (fun r => r.paper_id = pid)) :=
      (hpw pid).imp (fun h => Nat.ne_of_lt h)
    have hdist2 : List.Pairwise (fun a b : ReviewRow => a.idx ≠ b.idx)
        (List.insertionSort (fun a b => a.idx ≤ b.idx)
          ((applyUpserts flag ops).reviews.filter (fun r => r.paper_id = pid))) :=
      (List.Perm.pairwise_iff (fun h => h.symm) hperm).mpr hdist
    have hlt : List.Pairwise (fun a b : ReviewRow => a.idx < b.idx)
        (List.insertionSort (fun a b => a.idx ≤ b.idx)
          ((applyUpserts flag ops).reviews.filter (fun r => r.paper_id = pid))) :=
      (hsortle.and hdist2).imp (fun h => Nat.lt_of_le_of_ne h.1 h.2)
    refine ⟨?_, ?_, ?_⟩
    · simp only [get_reviews, if_neg hq]
      exact hlt.chain'
    · intro r
      simp only [get_reviews, if_neg hq]
      rw [hperm.mem_iff, List.mem_filter]
      simp
    · intro hnone
      have hfil : (applyUpserts flag ops).reviews.filter (fun r => r.paper_id = pid) = [] :=
        List.filter_eq_nil_iff.mpr (fun r hr => by simpa using hnone r hr)
      simp [get_reviews, hq, hfil]

def pRevW : PaperInput :=
  { id := "p1", reviews := some [some { summary := some "s0" }, none, some { text := some "t2" }] }

theorem get_reviews_sorted_complete_witness :
    List.Chain' (fun a b => a.idx < b.idx) (get_reviews (applyUpserts false [pRevW]) "p1")
    ∧ get_reviews (applyUpserts false []) "q" = [] :=
  ⟨(get_reviews_sorted_complete false [pRevW] "p1").1,
   (get_reviews_sorted_complete false [] "q").2.2 (by decide)⟩

/-! ## Embedding client (src/utils/llm.py)

The external service is an oracle `svc : Nat → List String → EmbedResp`
taking the global call number (so that successive calls may answer
differently) and the request batch.  A successful response is a list of
`(index, embedding)` items, exactly as the OpenAI response carries
`item.index` / `item.embedding`; an error response carries the three
attributes the code inspects: whether it is a 429 rate limit, a
server-provided retry-after delay, and a "maximum allowed batch size"
announcement parsed from the message.  `random.random()` is the oracle
`jit : Nat → ℚ` (one sample per back-off, values in `[0, 1)`), and
`time.sleep` is modelled by recording the wait durations. -/

abbrev Vec := List Int

abbrev EmbedItem := Nat × Vec

structure EmbedErr where
  isRateLimit : Bool
  retryAfter : Option ℚ
  maxBatch : Option Nat
deriving DecidableEq

inductive EmbedResp where
  | ok (items : List EmbedItem)
  | err (e : EmbedErr)
deriving DecidableEq

/-- `MUJICA_EMBEDDING_RETRY_MAX`, `..._RETRY_BASE_DELAY`, `..._RETRY_MAX_DELAY`. -/
structure RetryCfg where
  maxRetries : Nat
  baseDelay : ℚ
  maxDelay : ℚ
deriving DecidableEq

/-- The back-off computed at a rate-limited attempt (llm.py lines 170-173):
server `retry-after` when positive, else exponential `base * 2^attempt`
capped at `max_delay`; then jitter `* (0.85 + random() * 0.30)`, capped. -/
def computeWait (cfg : RetryCfg) (e : EmbedErr) (attempt : Nat) (j : ℚ) : ℚ :=
  let expo := min (cfg.baseDelay * 2 ^ attempt) cfg.maxDelay
  let w :=
    match e.retryAfter with
    | some ra => if 0 < ra then ra else expo
    | none => expo
  min cfg.maxDelay (w * (85 / 100 + j * (30 / 100)))

/-- The retry loop of `_embeddings_create_with_retry` (llm.py lines 163-186),
written with the remaining retry budget as the structural argument
(`rem = max_retries - attempt`).  Returns the response (or the re-raised
error), the next global call number, and the recorded waits. -/
def retryAux (svc : Nat → List String → EmbedResp) (jit : Nat → ℚ) (cfg : RetryCfg)
    (texts : List String) :
    Nat → Nat → Nat → (Except EmbedErr (List EmbedItem)) × Nat × List ℚ
  | _, callNo, 0 =>
    match svc callNo texts with
    | .ok items => (.ok items, callNo + 1, [])
    | .err e => (.error e, callNo + 1, [])
  | attempt, callNo, rem + 1 =>
    match svc callNo texts with
    | .ok items => (.ok items, callNo + 1, [])
    | .err e =>
      if e.isRateLimit then
        let w := computeWait cfg e attempt (jit attempt)
        let r := retryAux svc jit cfg texts (attempt + 1) (callNo + 1) rem
        (r.1, r.2.1, w :: r.2.2)
      else (.error e, callNo + 1, [])

def embeddingsCreateWithRetry (svc : Nat → List String → EmbedResp) (jit : Nat → ℚ)
    (cfg : RetryCfg) (texts : List String) (callNo : Nat) :
    (Except EmbedErr (List EmbedItem)) × Nat × List ℚ :=
  retryAux svc jit cfg texts 0 callNo cfg.maxRetries

/-- `out = [None] * n; for item in resp.data: out[item.index] = item.embedding`:
an out-of-range index raises (modelled as `none`), later items overwrite. -/
def assignItems (n : Nat) : List EmbedItem → List (Option Vec) → Option (List (Option Vec))
  | [], acc => some acc
  | (i, v) :: rest, acc => if i < n then assignItems n rest (acc.set i (some v)) else none

/-- `[v if v is not None else [] for v in out]`. -/
def assembleResp (n : Nat) (items : List EmbedItem) : Option (List Vec) :=
  (assignItems n items (List.replicate n none)).map (fun l => l.map (fun o => o.getD []))

/-- `(t or "").replace("\n", " ")` (the pattern is the single newline char). -/
def cleanText (s : String) : String :=
  String.mk (s.data.map (fun c => if c = '\n' then ' ' else c))

/-- `range(0, len(cleaned), max_batch)` slicing, with list-length fuel. -/
def splitEveryAux {α : Type _} (k : Nat) : Nat → List α → List (List α)
  | _, [] => []
  | 0, l => [l]
  | fuel + 1, l => l.take k :: splitEveryAux k fuel (l.drop k)

def splitEvery {α : Type _} (k : Nat) (l : List α) : List (List α) :=
  splitEveryAux k l.length l

/-- The fallback loop of `get_embeddings` after the service announces a
smaller maximum batch size (llm.py lines 298-310): each sub-batch is
retried independently; a failing sub-batch (or an out-of-range index in
its response) contributes empty vectors for exactly its own slots. -/
def splitEmbed (svc : Nat → List String → EmbedResp) (jit : Nat → ℚ) (cfg : RetryCfg) :
    List (List String) → Nat → List Vec × Nat
  | [], c => ([], c)
  | b :: rest, c =>
    match embeddingsCreateWithRetry svc jit cfg b c with
    | (.ok items, c1, _) =>
      let bout :=
        match assembleResp b.length items with
        | some out => out
        | none => b.map (fun _ => [])
      let r := splitEmbed svc jit cfg rest c1
      (bout ++ r.1, r.2)
    | (.error _, c1, _) =>
      let r := splitEmbed svc jit cfg rest c1
      (b.map (fun _ => []) ++ r.1, r.2)

structure EmbCfg where
  fake : Bool
  clientOk : Bool
  retry : RetryCfg

/-- `get_embeddings` (llm.py lines 255-317).  `fakeVec` stands for the
deterministic offline `_fake_embedding`; `cfg.clientOk` is whether
`get_llm_client` produced a client.  Returns the vectors and the next
global call number (so the number of external calls made is the
difference). -/
def get_embeddings (svc : Nat → List String → EmbedResp) (jit : Nat → ℚ)
    (fakeVec : String → Vec) (cfg : EmbCfg) (texts : List String) (callNo : Nat) :
    List Vec × Nat :=
  if texts = [] then ([], callNo)
  else if cfg.fake then (texts.map fakeVec, callNo)
  else if cfg.clientOk = false then (texts.map (fun _ => []), callNo)
  else
    let cleaned := texts.map cleanText
    match embeddingsCreateWithRetry svc jit cfg.retry cleaned callNo with
    | (.ok items, c1, _) =>
      match assembleResp cleaned.length items with
      | some out => (out, c1)
      | none => (texts.map (fun _ => []), c1)
    | (.error e, c1, _) =>
      match e.maxBatch with
      | some mb =>
        let k := max 1 (min mb 256)
        let r := splitEmbed svc jit cfg.retry (splitEvery k cleaned) c1
        if r.1.length = texts.length then (r.1, r.2) else (texts.map (fun _ => []), r.2)
      | none => (texts.map (fun _ => []), c1)

/-- A service whose successful responses list, in order, one item per
input text, tagged with its index and carrying the embedding of that
text. -/
def svcWellFormed (svc : Nat → List String → EmbedResp) (emb : String → Vec) : Prop :=
  ∀ c b items, svc c b = .ok items → items = b.enum.map (fun it => (it.1, emb it.2))

/-! ### Retry-loop lemmas -/

theorem retryAux_calls_le (svc : Nat → List String → EmbedResp) (jit : Nat → ℚ)
    (cfg : RetryCfg) (texts : List String) :
    ∀ rem a c, (retryAux svc jit cfg texts a c rem).2.1 ≤ c + rem + 1 := by
  intro rem
  induction rem with
  | zero =>
    intro a c
    cases hs : svc c texts <;> simp [retryAux, hs]
  | succ rem ih =>
    intro a c
    cases hs : svc c texts with
    | ok items => simp [retryAux, hs]
    | err e =>
      by_cases hrl : e.isRateLimit
      · have := ih (a + 1) (c + 1)
        simp only [retryAux, hs, hrl, if_true]
        omega
      · simp [retryAux, hs, hrl]

theorem retryAux_svc_ok (svc : Nat → List String → EmbedResp) (jit : Nat → ℚ)
    (cfg : RetryCfg) (texts : List String) {items : List EmbedItem}
    (rem a c : Nat) (h : svc c texts = .ok items) :
    retryAux svc jit cfg texts a c rem = (.ok items, c + 1, []) := by
  cases rem <;> simp [retryAux, h]

theorem retryAux_ok_src (svc : Nat → List String → EmbedResp) (jit : Nat → ℚ)
    (cfg : RetryCfg) (texts : List String) :
    ∀ rem a c items, (retryAux svc jit cfg texts a c rem).1 = .ok items →
      ∃ cn, svc cn texts = .ok items := by
  intro rem
  induction rem with
  | zero =>
    intro a c items h
    cases hs : svc c texts with
    | ok its =>
      simp only [retryAux, hs] at h
      simp at h
      exact ⟨c, by rw [hs, h]⟩
    | err e =>
      simp only [retryAux, hs] at h
      simp at h
  | succ rem ih =>
    intro a c items h
    cases hs : svc c texts with
    | ok its =>
      simp only [retryAux, hs] at h
      simp at h
      exact ⟨c, by rw [hs, h]⟩
    | err e =>
      by_cases hrl : e.isRateLimit
      · simp only [retryAux, hs, hrl, if_true] at h
        exact ih (a + 1) (c + 1) items h
      · simp only [retryAux, hs, hrl, if_false] at h
        simp at h

theorem retryAux_waits (svc : Nat → List String → EmbedResp) (jit : Nat → ℚ)
    (cfg : RetryCfg) (texts : List String) :
    ∀ rem a c k, k < (retryAux svc jit cfg texts a c rem).2.2.length →
      ∃ e, svc (c + k) texts = .err e ∧ e.isRateLimit = true ∧
        (retryAux svc jit cfg texts a c rem).2.2[k]?
          = some (computeWait cfg e (a + k) (jit (a + k))) := by
  intro rem
  induction rem with
  | zero =>
    intro a c k hk
    exfalso
    cases hs : svc c texts <;> simp [retryAux, hs] at hk
  | succ rem ih =>
    intro a c k hk
    cases hs : svc c texts with
    | ok its =>
      exfalso
      simp [retryAux, hs] at hk
    | err e =>
      by_cases hrl : e.isRateLimit
      · simp only [retryAux, hs, hrl, if_true] at hk
        cases k with
        | zero =>
          refine ⟨e, by simpa using hs, hrl, ?_⟩
          simp only [retryAux, hs, hrl, if_true]
          simp
        | succ k =>
          simp only [List.length_cons, Nat.succ_lt_succ_iff] at hk
          obtain ⟨e2, h1, h2, h3⟩ := ih (a + 1) (c + 1) k hk
          refine ⟨e2, ?_, h2, ?_⟩
          · have harith2 : c + 1 + k = c + (k + 1) := by omega
            rw [← harith2]
            exact h1
          · simp only [retryAux, hs, hrl, if_true]
            simp only [List.getElem?_cons_succ]
            rw [h3]
            have harith : a + 1 + k = a + (k + 1) := by omega
            rw [harith]
      · exfalso
        simp [retryAux, hs, hrl] at hk

theorem retryAux_all_err (svc : Nat → List String → EmbedResp) (jit : Nat → ℚ)
    (cfg : RetryCfg) (texts : List String) {e0 : EmbedErr}
    (hall : ∀ j, svc j texts = .err e0) (hrl : e0.isRateLimit = true) :
    ∀ rem a c, (retryAux svc jit cfg texts a c rem).1 = .error e0
      ∧ (retryAux svc jit cfg texts a c rem).2.1 = c + rem + 1 := by
  intro rem
  induction rem with
  | zero =>
    intro a c
    simp [retryAux, hall c]
  | succ rem ih =>
    intro a c
    have hme := ih (a + 1) (c + 1)
    simp only [retryAux, hall c, hrl, if_true]
    refine ⟨hme.1, ?_⟩
    rw [hme.2]
    omega

/-! ### Response reassembly lemmas -/

theorem assignItems_length (n : Nat) :
    ∀ items acc res, assignItems n items acc = some res → res.length = acc.length := by
  intro items
  induction items with
  | nil =>
    intro acc res h
    simp only [assignItems] at h
    simp [← Option.some.injEq _ _ |>.mp h]
  | cons it rest ih =>
    intro acc res h
    obtain ⟨i, v⟩ := it
    simp only [assignItems] at h
    by_cases hi : i < n
    · rw [if_pos hi] at h
      have := ih _ _ h
      rwa [List.length_set] at this
    · rw [if_neg hi] at h
      simp at h

theorem assign_enumFrom (emb : String → Vec) (n : Nat) :
    ∀ (b : List String) (s : Nat) (acc : List (Option Vec)),
      acc.length = n → s + b.length ≤ n →
      ∃ res,
        assignItems n ((List.enumFrom s b).map (fun it => (it.1, emb it.2))) acc = some res
        ∧ res.length = n
        ∧ (∀ j, j < s ∨ s + b.length ≤ j → res[j]? = acc[j]?)
        ∧ (∀ j, ∀ hj : j < b.length, res[s + j]? = some (some (emb (b.get ⟨j, hj⟩)))) := by
  intro b
  induction b with
  | nil =>
    intro s acc hacc hle
    refine ⟨acc, by simp [List.enumFrom, assignItems], hacc, fun j hj => rfl, ?_⟩
    intro j hj
    simp at hj
  | cons a b ih =>
    intro s acc hacc hle
    have hs : s < n := by
      simp only [List.length_cons] at hle
      omega
    obtain ⟨res, hres, hlen, hout, hin⟩ := ih (s + 1) (acc.set s (some (emb a)))
      (by rwa [List.length_set]) (by simp only [List.length_cons] at hle; omega)
    refine ⟨res, ?_, hlen, ?_, ?_⟩
    · simp only [List.enumFrom, List.map_cons, assignItems]
      rw [if_pos hs]
      exact hres
    · intro j hj
      have hj' : j < s + 1 ∨ s + 1 + b.length ≤ j := by
        simp only [List.length_cons] at hj
        omega
      rw [hout j hj']
      apply List.getElem?_set_ne
      simp only [List.length_cons] at hj
      omega
    · intro j hj
      cases j with
      | zero =>
        have h0 : res[s + 0]? = (acc.set s (some (emb a)))[s + 0]? := by
          apply hout
          omega
        rw [h0]
        simp only [Nat.add_zero]
        rw [List.getElem?_set_self (by rw [hacc]; exact hs)]
        rfl
      | succ j =>
        have harith : s + (j + 1) = (s + 1) + j := by omega
        rw [harith, hin j (by simpa using hj)]
        rfl

theorem assembleResp_enum (emb : String → Vec) (b : List String) :
    assembleResp b.length ((List.enum b).map (fun it => (it.1, emb it.2)))
      = some (b.map emb) := by
  obtain ⟨res, hres, hlen, hout, hin⟩ := assign_enumFrom emb b.length b 0
    (List.replicate b.length none) (by simp) (by omega)
  have henum : List.enum b = List.enumFrom 0 b := rfl
  have hstep : assembleResp b.length ((List.enum b).map (fun it => (it.1, emb it.2)))
      = some (res.map (fun o => o.getD [])) := by
    simp only [assembleResp, henum, hres]
    rfl
  rw [hstep]
  congr 1
  apply List.ext_getElem?
  intro j
  rw [List.getElem?_map, List.getElem?_map]
  by_cases hj : j < b.length
  · have := hin j hj
    simp only [Nat.zero_add] at this
    rw [this, List.getElem?_eq_getElem hj]
    rfl
  · have hres_j : res[j]? = none := List.getElem?_eq_none (by rw [hlen]; omega)
    have hb_j : b[j]? = none := List.getElem?_eq_none (by omega)
    rw [hres_j, hb_j]
    rfl

theorem assembleResp_length (n : Nat) (items : List EmbedItem) (out : List Vec)
    (h : assembleResp n items = some out) : out.length = n := by
  simp only [assembleResp] at h
  cases hassign : assignItems n items (List.replicate n none) with
  | none => rw [hassign] at h; simp at h
  | some res =>
    rw [hassign] at h
    have hout : res.map (fun o => o.getD []) = out := by simpa using h
    have hres := assignItems_length n items _ res hassign
    rw [← hout, List.length_map, hres, List.length_replicate]

/-! ### Batch-splitting lemmas -/

theorem splitEveryAux_flatten {α : Type _} (k : Nat) :
    ∀ fuel (l : List α), (splitEveryAux k fuel l).flatten = l := by
  intro fuel
  induction fuel with
  | zero =>
    intro l
    cases l <;> simp [splitEveryAux]
  | succ fuel ih =>
    intro l
    cases l with
    | nil => simp [splitEveryAux]
    | cons a l =>
      simp only [splitEveryAux, List.flatten_cons, ih]
      exact List.take_append_drop _ _

theorem splitEvery_flatten {α : Type _} (k : Nat) (l : List α) :
    (splitEvery k l).flatten = l :=
  splitEveryAux_flatten k l.length l

theorem splitEmbed_length (svc : Nat → List String → EmbedResp) (jit : Nat → ℚ)
    (cfg : RetryCfg) :
    ∀ bs c, (splitEmbed svc jit cfg bs c).1.length = bs.flatten.length := by
  intro bs
  induction bs with
  | nil => intro c; simp [splitEmbed]
  | cons b rest ih =>
    intro c
    simp only [splitEmbed]
    cases hr : embeddingsCreateWithRetry svc jit cfg b c with
    | mk r1 r2 =>
      cases r1 with
      | ok items =>
        simp only [List.flatten_cons, List.length_append]
        cases hassign : assembleResp b.length items with
        | none => simp [hassign, ih]
        | some out => simp [hassign, ih, assembleResp_length b.length items out hassign]
      | error e =>
        simp [List.flatten_cons, ih]

theorem splitEmbed_getElem (svc : Nat → List String → EmbedResp) (jit : Nat → ℚ)
    (cfg : RetryCfg) (emb : String → Vec) (hwf : svcWellFormed svc emb) :
    ∀ bs c i, i < bs.flatten.length →
      (splitEmbed svc jit cfg bs c).1[i]? = (bs.flatten[i]?).map emb
        ∨ (splitEmbed svc jit cfg bs c).1[i]? = some [] := by
  intro bs
  induction bs with
  | nil => intro c i hi; simp at hi
  | cons b rest ih =>
    intro c i hi
    simp only [splitEmbed]
    cases hr : embeddingsCreateWithRetry svc jit cfg b c with
    | mk r1 r2 =>
      cases r1 with
      | ok items =>
        have hitems : items = b.enum.map (fun it => (it.1, emb it.2)) := by
          obtain ⟨cn, hcn⟩ := retryAux_ok_src svc jit cfg b cfg.maxRetries 0 c items
            (by rw [show retryAux svc jit cfg b 0 c cfg.maxRetries
                      = embeddingsCreateWithRetry svc jit cfg b c from rfl, hr])
          exact hwf cn b items hcn
        have hassemble : assembleResp b.length items = some (b.map emb) := by
          rw [hitems]
          exact assembleResp_enum emb b
        simp only [hassemble]
        by_cases hib : i < b.length
        · left
          rw [List.getElem?_append, if_pos (by simpa using hib)]
          simp only [List.flatten_cons]
          rw [List.getElem?_append, if_pos hib]
          rw [List.getElem?_map]
        · have hge : b.length ≤ i := by omega
          simp only [List.flatten_cons]
          rw [List.getElem?_append_right (by simpa using hge),
            List.getElem?_append_right hge]
          simp only [List.length_map]
          apply ih
          simp only [List.flatten_cons, List.length_append] at hi
          omega
      | error e =>
        simp only
        by_cases hib : i < b.length
        · right
          rw [List.getElem?_append, if_pos (by simpa using hib)]
          rw [List.getElem?_map]
          rw [List.getElem?_eq_getElem hib]
          rfl
        · have hge : b.length ≤ i := by omega
          simp only [List.flatten_cons]
          rw [List.getElem?_append_right (by simpa using hge),
            List.getElem?_append_right hge]
          simp only [List.length_map]
          apply ih
          simp only [List.flatten_cons, List.length_append] at hi
          omega

/-- Claim C4.  `get_embeddings` always returns as many vectors as input
texts (never raising: the model is a total function), and when the
service tags each successful response item with the index of its input,
every output slot holds either the embedding of the text at that very
position (newline-cleaned, as sent) or the empty vector marking a failed
item — including the auto-split path taken after the service announces a
smaller maximum batch size. -/
theorem get_embeddings_shape (svc : Nat → List String → EmbedResp) (jit : Nat → ℚ)
    (fakeVec : String → Vec) (cfg : EmbCfg) (texts : List String) (callNo : Nat)
    (emb : String → Vec) :
    (get_embeddings svc jit fakeVec cfg texts callNo).1.length = texts.length
    ∧ (svcWellFormed svc emb → cfg.fake = false →
        ∀ i, i < texts.length →
          (get_embeddings svc jit fakeVec cfg texts callNo).1[i]?
              = some (emb (cleanText ((texts[i]?).getD "")))
            ∨ (get_embeddings svc jit fakeVec cfg texts callNo).1[i]? = some []) := by
  by_cases h0 : texts = []
  · subst h0
    refine ⟨by simp [get_embeddings], ?_⟩
    intro _ _ i hi
    simp at hi
  · by_cases hfake : cfg.fake
    · refine ⟨by simp [get_embeddings, h0, hfake], ?_⟩
      intro _ hf
      rw [hf] at hfake
      simp at hfake
    · by_cases hclient : cfg.clientOk = false
      · have hval : get_embeddings svc jit fakeVec cfg texts callNo
            = (texts.map (fun _ => []), callNo) := by
          simp [get_embeddings, h0, hfake, hclient]
        refine ⟨by simp [hval], ?_⟩
        intro _ _ i hi
        right
        rw [hval]
        simp only [List.getElem?_map, List.getElem?_eq_getElem hi]
        rfl
      · -- client path
        cases hr : embeddingsCreateWithRetry svc jit cfg.retry (texts.map cleanText) callNo with
        | mk r1 rr =>
          obtain ⟨c1, ws⟩ := rr
          cases r1 with
          | ok items =>
            cases hassemble : assembleResp (texts.map cleanText).length items with
            | some out =>
              have hval : get_embeddings svc jit fakeVec cfg texts callNo = (out, c1) := by
                simp only [get_embeddings, if_neg h0]
                rw [if_neg hfake, if_neg hclient]
                simp only [hr, hassemble]
              have hlen : out.length = texts.length := by
                have := assembleResp_length _ _ _ hassemble
                simpa using this
              refine ⟨by simp [hval, hlen], ?_⟩
              intro hwf hf i hi
              obtain ⟨cn, hcn⟩ := retryAux_ok_src svc jit cfg.retry (texts.map cleanText)
                cfg.retry.maxRetries 0 callNo items (by rw [show retryAux svc jit cfg.retry
                  (texts.map cleanText) 0 callNo cfg.retry.maxRetries
                  = embeddingsCreateWithRetry svc jit cfg.retry (texts.map cleanText) callNo
                  from rfl, hr])
              have hitems := hwf cn (texts.map cleanText) items hcn
              have hsome : assembleResp (texts.map cleanText).length items
                  = some ((texts.map cleanText).map emb) := by
                rw [hitems]
                exact assembleResp_enum emb (texts.map cleanText)
              rw [hassemble] at hsome
              have hout : out = (texts.map cleanText).map emb := by
                simpa using hsome
              left
              rw [hval]
              simp only [hout, List.map_map, List.getElem?_map, List.getElem?_eq_getElem hi]
              rfl
            | none =>
              have hval : get_embeddings svc jit fakeVec cfg texts callNo
                  = (texts.map (fun _ => []), c1) := by
                simp only [get_embeddings, if_neg h0]
                rw [if_neg hfake, if_neg hclient]
                simp only [hr, hassemble]
              refine ⟨by simp [hval], ?_⟩
              intro _ _ i hi
              right
              rw [hval]
              simp only [List.getElem?_map, List.getElem?_eq_getElem hi]
              rfl
          | error e =>
            cases hmb : e.maxBatch with
            | some mb =>
              have hflat := splitEvery_flatten (max 1 (min mb 256)) (texts.map cleanText)
              have hslen := splitEmbed_length svc jit cfg.retry
                (splitEvery (max 1 (min mb 256)) (texts.map cleanText)) c1
              have hlen : (splitEmbed svc jit cfg.retry
                  (splitEvery (max 1 (min mb 256)) (texts.map cleanText)) c1).1.length
                  = texts.length := by
                rw [hslen, hflat, List.length_map]
              have hval : get_embeddings svc jit fakeVec cfg texts callNo
                  = ((splitEmbed svc jit cfg.retry
                      (splitEvery (max 1 (min mb 256)) (texts.map cleanText)) c1).1,
                    (splitEmbed svc jit cfg.retry
                      (splitEvery (max 1 (min mb 256)) (texts.map cleanText)) c1).2) := by
                simp only [get_embeddings, if_neg h0]
                rw [if_neg hfake, if_neg hclient]
                simp only [hr, hmb]
                rw [if_pos hlen]
              refine ⟨by rw [hval]; exact hlen, ?_⟩
              intro hwf _ i hi
              have hcov := splitEmbed_getElem svc jit cfg.retry emb hwf
                (splitEvery (max 1 (min mb 256)) (texts.map cleanText)) c1 i
                (by rw [hflat, List.length_map]; exact hi)
              rw [hval]
              rcases hcov with hcov | hcov
              · left
                rw [hcov, hflat]
                simp only [List.getElem?_map, List.getElem?_eq_getElem hi]
                rfl
              · right
                rw [hcov]
            | none =>
              have hval : get_embeddings svc jit fakeVec cfg texts callNo
                  = (texts.map (fun _ => []), c1) := by
                simp only [get_embeddings, if_neg h0]
                rw [if_neg hfake, if_neg hclient]
                simp only [hr, hmb]
              refine ⟨by simp [hval], ?_⟩
              intro _ _ i hi
              right
              rw [hval]
              simp only [List.getElem?_map, List.getElem?_eq_getElem hi]
              rfl

/-- The embedding every witness service reports: the length of the text. -/
def embW : String → Vec := fun s => [Int.ofNat s.length]

def svcOkW : Nat → List String → EmbedResp :=
  fun _ b => .ok (b.enum.map (fun it => (it.1, embW it.2)))

theorem svcOkW_wellFormed : svcWellFormed svcOkW embW := by
  intro c b items h
  injection h with h2
  exact h2.symm

def cfgW : RetryCfg := { maxRetries := 8, baseDelay := 1, maxDelay := 60 }

def ecfgW : EmbCfg := { fake := false, clientOk := true, retry := cfgW }

theorem get_embeddings_shape_witness :
    (get_embeddings svcOkW (fun _ => 0) (fun _ => []) ecfgW ["x", "y z"] 0).1.length
        = (["x", "y z"] : List String).length
    ∧ ((get_embeddings svcOkW (fun _ => 0) (fun _ => []) ecfgW ["x", "y z"] 0).1[0]?
          = some (embW (cleanText (((["x", "y z"] : List String)[0]?).getD "")))
        ∨ (get_embeddings svcOkW (fun _ => 0) (fun _ => []) ecfgW ["x", "y z"] 0).1[0]?
          = some []) := by
  have h := get_embeddings_shape svcOkW (fun _ => 0) (fun _ => []) ecfgW ["x", "y z"] 0 embW
  exact ⟨h.1, h.2 svcOkW_wellFormed rfl 0 (by decide)⟩

/-- Claim C5.  Rate-limit handling of the embedding client:
(1) the retry loop makes at most `max_retries + 1` external calls;
(2) the k-th recorded back-off follows a rate-limited error at the k-th
call and equals the server retry-after when positive, otherwise
`base_delay * 2^k` capped at `max_delay`, jittered by `0.85 + 0.30 * r`
and capped at `max_delay`;
(3) a rate-limited first call followed by a successful second call yields
the successful response after exactly 2 calls and one back-off;
(4) in that scenario `get_embeddings` returns the correct vector for
every input, in order, with exactly 2 external calls;
(5) when every call is rate-limited (and announces no batch limit), the
retries exhaust after `max_retries + 1` calls and every item surfaces as
an empty vector. -/
theorem embed_retry_rate_limit (svc : Nat → List String → EmbedResp) (jit : Nat → ℚ)
    (cfg : RetryCfg) (texts : List String) (callNo : Nat) :
    ((embeddingsCreateWithRetry svc jit cfg texts callNo).2.1 ≤ callNo + cfg.maxRetries + 1)
    ∧ (∀ k, k < (embeddingsCreateWithRetry svc jit cfg texts callNo).2.2.length →
        ∃ e, svc (callNo + k) texts = .err e ∧ e.isRateLimit = true ∧
          (embeddingsCreateWithRetry svc jit cfg texts callNo).2.2[k]?
            = some (min cfg.maxDelay
                ((match e.retryAfter with
                  | some ra => if 0 < ra then ra else min (cfg.baseDelay * 2 ^ k) cfg.maxDelay
                  | none => min (cfg.baseDelay * 2 ^ k) cfg.maxDelay)
                  * (85 / 100 + jit k * (30 / 100)))))
    ∧ (∀ e items, 1 ≤ cfg.maxRetries → svc callNo texts = .err e → e.isRateLimit = true →
        svc (callNo + 1) texts = .ok items →
        embeddingsCreateWithRetry svc jit cfg texts callNo
          = (.ok items, callNo + 2, [computeWait cfg e 0 (jit 0)]))
    ∧ (∀ (fakeVec emb : String → Vec) (ecfg : EmbCfg) (e : EmbedErr),
        ecfg.retry = cfg → ecfg.fake = false → ecfg.clientOk = true →
        texts ≠ [] → 1 ≤ cfg.maxRetries →
        svc callNo (texts.map cleanText) = .err e → e.isRateLimit = true →
        svc (callNo + 1) (texts.map cleanText)
          = .ok ((texts.map cleanText).enum.map (fun it => (it.1, emb it.2))) →
        get_embeddings svc jit fakeVec ecfg texts callNo
          = (texts.map (fun t => emb (cleanText t)), callNo + 2))
    ∧ (∀ (fakeVec : String → Vec) (ecfg : EmbCfg) (e0 : EmbedErr),
        ecfg.retry = cfg → ecfg.fake = false → ecfg.clientOk = true →
        texts ≠ [] → (∀ j, svc j (texts.map cleanText) = .err e0) → e0.isRateLimit = true →
        e0.maxBatch = none →
        get_embeddings svc jit fakeVec ecfg texts callNo
          = (texts.map (fun _ => []), callNo + cfg.maxRetries + 1)) := by
  have hsc : ∀ (ts : List String) (e : EmbedErr) (items : List EmbedItem),
      1 ≤ cfg.maxRetries → svc callNo ts = .err e →
      e.isRateLimit = true → svc (callNo + 1) ts = .ok items →
      embeddingsCreateWithRetry svc jit cfg ts callNo
        = (.ok items, callNo + 2, [computeWait cfg e 0 (jit 0)]) := by
    intro ts e items h1 herr hrl hok
    obtain ⟨rem, hrem⟩ : ∃ rem, cfg.maxRetries = rem + 1 := ⟨cfg.maxRetries - 1, by omega⟩
    have hinner := @retryAux_svc_ok svc jit cfg ts items rem 1 (callNo + 1) hok
    simp only [embeddingsCreateWithRetry, hrem, retryAux, herr, hrl, if_true, hinner]
  refine ⟨?_, ?_, fun e items => hsc texts e items, ?_, ?_⟩
  · exact retryAux_calls_le svc jit cfg texts cfg.maxRetries 0 callNo
  · intro k hk
    obtain ⟨e, h1, h2, h3⟩ := retryAux_waits svc jit cfg texts cfg.maxRetries 0 callNo k hk
    refine ⟨e, h1, h2, ?_⟩
    show (retryAux svc jit cfg texts 0 callNo cfg.maxRetries).2.2[k]? = _
    rw [h3]
    simp only [computeWait, Nat.zero_add]
  · intro fakeVec emb ecfg e hrc hf hc h0 h1 herr hrl hok
    have hretry := hsc (texts.map cleanText) e
      ((texts.map cleanText).enum.map (fun it => (it.1, emb it.2))) h1 herr hrl hok
    have hassemble := assembleResp_enum emb (texts.map cleanText)
    simp only [get_embeddings, if_neg h0]
    rw [if_neg (by rw [hf]; simp), if_neg (by rw [hc]; simp), hrc]
    simp only [hretry, hassemble]
    rw [List.map_map]
    rfl
  · intro fakeVec ecfg e0 hrc hf hc h0 hall hrl hmb
    cases hr : embeddingsCreateWithRetry svc jit cfg (texts.map cleanText) callNo with
    | mk r1 rr =>
      obtain ⟨c1, ws⟩ := rr
      have hfail := retryAux_all_err svc jit cfg (texts.map cleanText) hall hrl
        cfg.maxRetries 0 callNo
      have hfst : r1 = .error e0 := by
        have hx := hfail.1
        rw [show retryAux svc jit cfg (texts.map cleanText) 0 callNo cfg.maxRetries
            = embeddingsCreateWithRetry svc jit cfg (texts.map cleanText) callNo from rfl,
          hr] at hx
        exact hx
      have hsnd : c1 = callNo + cfg.maxRetries + 1 := by
        have hx := hfail.2
        rw [show retryAux svc jit cfg (texts.map cleanText) 0 callNo cfg.maxRetries
            = embeddingsCreateWithRetry svc jit cfg (texts.map cleanText) callNo from rfl,
          hr] at hx
        exact hx
      subst hfst
      subst hsnd
      simp only [get_embeddings, if_neg h0]
      rw [if_neg (by rw [hf]; simp), if_neg (by rw [hc]; simp), hrc]
      simp only [hr, hmb]

def errRLW : EmbedErr := { isRateLimit := true, retryAfter := some 2, maxBatch := none }

/-- Rate-limited on the first call, successful on the second. -/
def svcRetryW : Nat → List String → EmbedResp :=
  fun c b => if c = 0 then .err errRLW else .ok (b.enum.map (fun it => (it.1, embW it.2)))

theorem embed_retry_rate_limit_witness :
    get_embeddings svcRetryW (fun _ => 0) (fun _ => []) ecfgW ["a", "b\nc"] 0
      = (["a", "b\nc"].map (fun t => embW (cleanText t)), 0 + 2) := by
  apply (embed_retry_rate_limit svcRetryW (fun _ => 0) cfgW ["a", "b\nc"] 0).2.2.2.1
    (fun _ => []) embW ecfgW errRLW rfl rfl rfl (by decide) (by decide) rfl rfl rfl

/-! ## Ingest: derivation of chunk rows and selective deletion
(`KnowledgeBase.ingest_data`, storage.py lines 152-700)

The chunk-embedding step batches all chunk texts through `get_embeddings`
with order and length preserved (theorem `get_embeddings_shape`); at the
row level this equals applying a per-text oracle `emb : String → Vec`,
where a failed item is the empty vector.  The LanceDB tables are modelled
at row level here; the Arrow-schema level (dimension pinning and table
rebuild) is modelled separately below. -/

structure ChunkPreRow where
  chunk_id : String
  paper_id : String
  source : String
  chunk_index : Nat
  text : String
deriving DecidableEq

structure ChunkRow where
  chunk_id : String
  paper_id : String
  source : String
  chunk_index : Nat
  text : String
  vector : Vec
deriving DecidableEq

def withVector (r : ChunkPreRow) (v : Vec) : ChunkRow :=
  ⟨r.chunk_id, r.paper_id, r.source, r.chunk_index, r.text, v⟩

/-- `MUJICA_INGEST_REVIEWS`, clamped `MUJICA_MAX_REVIEWS_PER_PAPER`, the
chunker parameters, and `MUJICA_REPLACE_EMPTY_REVIEWS`. -/
structure IngestCfg where
  ingestReviews : Bool
  maxReviewsPerPaper : Nat
  chunkMaxTokens : Nat
  chunkOverlapTokens : Nat
  replaceEmptyReviews : Bool

def chunkStr (cfg : IngestCfg) (s : String) : List String :=
  (chunk_text s.data cfg.chunkMaxTokens cfg.chunkOverlapTokens).map (fun l => String.mk l)

def joinComma (xs : List String) : String := String.intercalate ", " xs

/-- The synthesized `meta` block (storage.py lines 494-520). -/
def metaLines (p : PaperInput) (pid : String) : List String :=
  ["Paper ID: " ++ pid]
  ++ (if stripStr p.title ≠ "" then ["Title: " ++ stripStr p.title] else [])
  ++ (if p.authors ≠ [] then ["Authors: " ++ joinComma (p.authors.take 25)] else [])
  ++ (if p.keywords ≠ [] then ["Keywords: " ++ joinComma (p.keywords.take 30)] else [])
  ++ (match p.year with | some y => ["Year: " ++ toString y] | none => [])
  ++ (match p.venue_id with | some v => if v ≠ "" then ["Venue: " ++ v] else [] | none => [])
  ++ (match p.decision with | some d => ["Decision: " ++ d] | none => [])
  ++ (if stripStr ((p.decision_text).getD "") ≠ "" then ["Decision Note: yes"] else [])
  ++ (match PaperInput.presentation p with
      | some pr => ["Presentation: " ++ pr]
      | none => [])
  ++ (match p.rating with | some r => ["Rating: " ++ toString r] | none => [])
  ++ (match p.pdf_url with | some u => if u ≠ "" then ["PDF: " ++ u] else [] | none => [])
  ++ (match p.pdf_path with
      | some u => if u ≠ "" then ["PDF Path: " ++ u] else []
      | none => [])
  ++ (if (p.reviews.getD []) ≠ []
      then ["Reviews: " ++ toString (p.reviews.getD []).length] else [])

def metaText (p : PaperInput) (pid : String) : String :=
  stripStr (String.intercalate "\n" ((metaLines p pid).filter (fun x => x ≠ "")))

/-- The narrative text of one review: the stored `text` when present, else
assembled from rating/confidence/summary/strengths/weaknesses
(storage.py lines 540-556). -/
def reviewText (r : ReviewInput) : String :=
  let t := stripStr (r.text.getD "")
  if t ≠ "" then t
  else
    let parts :=
      (match r.rating_raw with
       | some v => if v ≠ "" ∧ v ≠ "N/A" then ["Rating: " ++ v] else []
       | none => [])
      ++ (match r.confidence_raw with
          | some v => if v ≠ "" ∧ v ≠ "N/A" then ["Confidence: " ++ v] else []
          | none => [])
      ++ (if stripStr (r.summary.getD "") ≠ ""
          then ["Summary:\n" ++ stripStr (r.summary.getD "")] else [])
      ++ (if stripStr (r.strengths.getD "") ≠ ""
          then ["Strengths:\n" ++ stripStr (r.strengths.getD "")] else [])
      ++ (if stripStr (r.weaknesses.getD "") ≠ ""
          then ["Weaknesses:\n" ++ stripStr (r.weaknesses.getD "")] else [])
    stripStr (String.intercalate "\n\n" parts)

/-- `for ridx, r in enumerate(reviews[:max]):` building `review_{ridx}`
sources; non-dict entries skipped but consuming their index. -/
def reviewBlocksAux : Nat → List (Option ReviewInput) → List (String × String)
  | _, [] => []
  | i, none :: rest => reviewBlocksAux (i + 1) rest
  | i, some r :: rest =>
    (if reviewText r = "" then [] else [("review_" ++ toString i, reviewText r)])
      ++ reviewBlocksAux (i + 1) rest

/-- The per-paper source list (storage.py lines 447-561), in code order. -/
def sourcesForPaper (cfg : IngestCfg) (p : PaperInput) (pid : String) :
    List (String × String) :=
  (if metaText p pid ≠ "" then [("meta", metaText p pid)] else [])
  ++ (if stripStr p.title ≠ "" ∨ stripStr p.abstract ≠ "" then
        [("title_abstract",
          stripStr ("Title: " ++ stripStr p.title ++ "\nAbstract: " ++ stripStr p.abstract))]
      else [])
  ++ (if stripStr p.tldr ≠ "" then [("tldr", stripStr p.tldr)] else [])
  ++ (if stripStr ((p.decision_text).getD "") ≠ ""
      then [("decision", stripStr ((p.decision_text).getD ""))] else [])
  ++ (if stripStr ((p.rebuttal_text).getD "") ≠ ""
      then [("rebuttal", stripStr ((p.rebuttal_text).getD ""))] else [])
  ++ (if cfg.ingestReviews = true ∧ p.reviews.getD [] ≠ [] ∧ 0 < cfg.maxReviewsPerPaper
      then reviewBlocksAux 0 ((p.reviews.getD []).take cfg.maxReviewsPerPaper) else [])
  ++ (if stripStr p.content ≠ "" then [("full_text", stripStr p.content)] else [])

def preRowsForSource (cfg : IngestCfg) (pid source txt : String) : List ChunkPreRow :=
  (chunkStr cfg txt).enum.map (fun it =>
    { chunk_id := pid ++ "::" ++ source ++ "::" ++ toString it.1
      paper_id := pid
      source := source
      chunk_index := it.1
      text := it.2 })

def preRowsForPaper (cfg : IngestCfg) (p : PaperInput) : List ChunkPreRow :=
  let pid := stripStr p.id
  if pid = "" then []
  else (sourcesForPaper cfg p pid).flatMap (fun st => preRowsForSource cfg pid st.1 st.2)

/-- `srcs = [f"review_{i}" for i in range(max_reviews_per_paper)]` and the
SQL `source IN (...)` test. -/
def isReviewSource (maxR : Nat) (s : String) : Bool :=
  (List.range maxR).any (fun i => s = "review_" ++ toString i)

/-- Which stored chunk rows the ingest of `p` deletes for its paper
(storage.py lines 459-483): with full text supplied, all of the paper's
rows; otherwise only `meta`/`title_abstract`/`tldr`, plus `review_*` only
when reviews are supplied, plus `decision`/`rebuttal` only when those
texts are supplied. -/
def chunkDeleted (cfg : IngestCfg) (p : PaperInput) (r : ChunkRow) : Prop :=
  r.paper_id = stripStr p.id ∧
    (stripStr p.content ≠ "" ∨
      (r.source = "meta" ∨ r.source = "title_abstract" ∨ r.source = "tldr"
        ∨ (cfg.ingestReviews = true ∧ p.reviews.getD [] ≠ [] ∧ 0 < cfg.maxReviewsPerPaper
            ∧ isReviewSource cfg.maxReviewsPerPaper r.source = true)
        ∨ (stripStr ((p.decision_text).getD "") ≠ "" ∧ r.source = "decision")
        ∨ (stripStr ((p.rebuttal_text).getD "") ≠ "" ∧ r.source = "rebuttal")))

instance (cfg : IngestCfg) (p : PaperInput) : DecidablePred (chunkDeleted cfg p) := by
  intro r
  unfold chunkDeleted
  infer_instance

def deleteChunksForPaper (cfg : IngestCfg) (tbl : List ChunkRow) (p : PaperInput) :
    List ChunkRow :=
  if stripStr p.id = "" then tbl
  else tbl.filter (fun r => ¬ chunkDeleted cfg p r)

def embedRows (emb : String → Vec) (pre : List ChunkPreRow) : List ChunkRow :=
  pre.filterMap (fun r =>
    if emb r.text = [] then none else some (withVector r (emb r.text)))

/-- The chunk-table effect of one `ingest_data` call: per paper, the
selective delete runs inside the loop (before any insert); the surviving
derived rows are appended once at the end. -/
def ingestChunksPhase (cfg : IngestCfg) (emb : String → Vec) (tbl : List ChunkRow)
    (papers : List PaperInput) : List ChunkRow :=
  (papers.foldl (deleteChunksForPaper cfg) tbl)
    ++ embedRows emb (papers.flatMap (preRowsForPaper cfg))

/-- A row of the LanceDB `papers` table. -/
structure PaperVecRow where
  id : String
  title : String
  abstract : String
  rating : Option ℚ
  year : Option Int
  vector : Vec
deriving DecidableEq

def paperText (p : PaperInput) : String :=
  stripStr ("Title: " ++ stripStr p.title ++ "\nAbstract: " ++ stripStr p.abstract)

/-- The paper-level rows of one ingest (storage.py lines 202-288): skip
empty ids and empty embed texts, and skip rows whose embedding failed. -/
def paperRowsFor (emb : String → Vec) (papers : List PaperInput) : List PaperVecRow :=
  papers.filterMap (fun p =>
    if stripStr p.id = "" then none
    else if paperText p = "" then none
    else if emb (paperText p) = [] then none
    else some { id := stripStr p.id, title := stripStr p.title,
                abstract := stripStr p.abstract, rating := p.rating, year := p.year,
                vector := emb (paperText p) })

structure KB where
  meta : MetaState
  papersVec : List PaperVecRow
  chunksVec : List ChunkRow

/-- `KnowledgeBase.ingest_data` at row level (the papers-table write is
modelled in its delete-then-add branch; the schema-mismatch rebuild is
modelled separately at table level). -/
def ingest_data (cfg : IngestCfg) (emb : String → Vec) (kb : KB)
    (papers : List PaperInput) : KB :=
  if papers = [] then kb
  else
    let meta' := papers.foldl (upsert_paper_and_reviews cfg.replaceEmptyReviews) kb.meta
    let prows := paperRowsFor emb papers
    let pv :=
      if prows = [] then kb.papersVec
      else kb.papersVec.filter (fun r => ¬ r.id ∈ prows.map PaperVecRow.id) ++ prows
    let cv := ingestChunksPhase cfg emb kb.chunksVec papers
    { meta := meta', papersVec := pv, chunksVec := cv }

/-- `KnowledgeBase.get_paper_ids_with_content` (storage.py lines 702-721):
distinct paper ids having at least one `full_text`-sourced chunk. -/
def get_paper_ids_with_content (tbl : List ChunkRow) : List String :=
  ((tbl.filter (fun r => r.source = "full_text")).map (fun r => r.paper_id)).dedup

/-! ### Ingest lemmas -/

theorem embedRows_of_total (emb : String → Vec) (h : ∀ s, emb s ≠ [])
    (pre : List ChunkPreRow) :
    embedRows emb pre = pre.map (fun r => withVector r (emb r.text)) := by
  unfold embedRows
  rw [show (fun r : ChunkPreRow =>
        if emb r.text = [] then none else some (withVector r (emb r.text)))
      = (some ∘ fun r => withVector r (emb r.text)) from funext (fun r => by simp [h r.text])]
  exact congrFun (List.filterMap_eq_map _) pre

theorem review_source_ne_full_text (s : String) : ("review_" ++ s) ≠ "full_text" := by
  intro h
  have h2 := congrArg String.data h
  rw [String.data_append] at h2
  have h3 : "review_".data = 'r' :: "eview_".data := rfl
  have h4 : "full_text".data = 'f' :: "ull_text".data := rfl
  rw [h3, h4, List.cons_append] at h2
  injection h2 with h5 h6
  exact absurd h5 (by decide)

theorem isReviewSource_full_text (m : Nat) : isReviewSource m "full_text" = false := by
  unfold isReviewSource
  rw [List.any_eq_false]
  intro i hi
  simp only [decide_eq_true_eq]
  intro hx
  exact review_source_ne_full_text (toString i) hx.symm

theorem chunk_text_ne_nil (text : List Char) (maxT ovT : Nat) (h : stripChars text ≠ []) :
    chunk_text text maxT ovT ≠ [] := by
  by_cases hlen : (stripChars text).length ≤ max 50 maxT
  · simp only [chunk_text]
    rw [if_neg h, if_pos hlen]
    simp
  · have hlong : clampM maxT < (stripChars text).length := by
      unfold clampM
      omega
    have hn : 0 < (stripChars text).length := by
      have : 0 < clampM maxT := lt_of_lt_of_le (by norm_num) (le_max_left 50 maxT)
      omega
    rw [chunk_text_long_eq text maxT ovT hlong, chunkGo_eq_filterMap]
    intro hcon
    have hhead := chunkWindowsGo_head (stripChars text).length (clampM maxT)
      (clampOv maxT ovT) 0 (stripChars text).length hn hn
    cases hw : chunkWindowsGo (stripChars text).length (clampM maxT) (clampOv maxT ovT) 0
        (stripChars text).length with
    | nil =>
      rw [hw] at hhead
      simp at hhead
    | cons w rest =>
      rw [hw] at hhead hcon
      have hw0 : w = (0, min (0 + clampM maxT) (stripChars text).length) := by
        simpa using hhead
      rw [List.filterMap_cons] at hcon
      have hfrag : fragOf (stripChars text) w ≠ none := by
        rw [hw0]
        simp only [fragOf]
        have hmin : min (0 + clampM maxT) (stripChars text).length = clampM maxT := by omega
        rw [hmin]
        simp only [List.drop_zero, Nat.sub_zero]
        rw [if_neg (stripChars_take_ne_nil (stripChars_idem text) h
          (show 0 < clampM maxT from lt_of_lt_of_le (by norm_num) (le_max_left 50 maxT)))]
        simp
      cases hf : fragOf (stripChars text) w with
      | none => exact hfrag hf
      | some c =>
        rw [hf] at hcon
        simp at hcon

theorem reviewBlocksAux_mem :
    ∀ (rs : List (Option ReviewInput)) (i : Nat), ∀ st ∈ reviewBlocksAux i rs,
      ∃ k : Nat, st.1 = "review_" ++ toString k := by
  intro rs
  induction rs with
  | nil => intro i st hst; simp [reviewBlocksAux] at hst
  | cons o rest ih =>
    intro i st hst
    cases o with
    | none => exact ih (i + 1) st (by simpa [reviewBlocksAux] using hst)
    | some r =>
      simp only [reviewBlocksAux] at hst
      rcases List.mem_append.mp hst with h1 | h1
      · by_cases ht : reviewText r = ""
        · rw [if_pos ht] at h1
          simp at h1
        · rw [if_neg ht] at h1
          have : st = ("review_" ++ toString i, reviewText r) := by simpa using h1
          exact ⟨i, by rw [this]⟩
      · exact ih (i + 1) st h1

theorem preRowsForSource_fields (cfg : IngestCfg) (pid source txt : String) :
    ∀ r ∈ preRowsForSource cfg pid source txt, r.paper_id = pid ∧ r.source = source := by
  intro r hr
  unfold preRowsForSource at hr
  obtain ⟨it, hit, heq⟩ := List.mem_map.mp hr
  rw [← heq]
  exact ⟨rfl, rfl⟩

theorem sourcesForPaper_full_text (cfg : IngestCfg) (p : PaperInput) (pid : String)
    (h : stripStr p.content ≠ "") :
    ("full_text", stripStr p.content) ∈ sourcesForPaper cfg p pid := by
  unfold sourcesForPaper
  refine List.mem_append.mpr (Or.inr ?_)
  rw [if_pos h]
  simp

theorem sourcesForPaper_full_text_only (cfg : IngestCfg) (p : PaperInput) (pid : String) :
    ∀ st ∈ sourcesForPaper cfg p pid, st.1 = "full_text" → stripStr p.content ≠ "" := by
  intro st hst hfull
  unfold sourcesForPaper at hst
  rcases List.mem_append.mp hst with h6 | hft
  · exfalso
    rcases List.mem_append.mp h6 with h5 | hrv
    · rcases List.mem_append.mp h5 with h4 | hre
      · rcases List.mem_append.mp h4 with h3 | hde
        · rcases List.mem_append.mp h3 with h2 | htl
          · rcases List.mem_append.mp h2 with h1 | hta
            · split at h1
              · have hx : st = ("meta", metaText p pid) := by simpa using h1
                rw [hx] at hfull
                simp at hfull
              · simp at h1
            · split at hta
              · have hx : st = ("title_abstract",
                    stripStr ("Title: " ++ stripStr p.title
                      ++ "\nAbstract: " ++ stripStr p.abstract)) := by
                  simpa using hta
                rw [hx] at hfull
                simp at hfull
              · simp at hta
          · split at htl
            · have hx : st = ("tldr", stripStr p.tldr) := by simpa using htl
              rw [hx] at hfull
              simp at hfull
            · simp at htl
        · split at hde
          · have hx : st = ("decision", stripStr ((p.decision_text).getD "")) := by
              simpa using hde
            rw [hx] at hfull
            simp at hfull
          · simp at hde
      · split at hre
        · have hx : st = ("rebuttal", stripStr ((p.rebuttal_text).getD "")) := by
            simpa using hre
          rw [hx] at hfull
          simp at hfull
        · simp at hre
    · split at hrv
      · obtain ⟨k, hk⟩ := reviewBlocksAux_mem _ 0 st hrv
        rw [hfull] at hk
        exact review_source_ne_full_text (toString k) hk.symm
      · simp at hrv
  · split at hft
    · assumption
    · simp at hft

theorem preRowsForPaper_fields (cfg : IngestCfg) (p : PaperInput) :
    ∀ r ∈ preRowsForPaper cfg p,
      r.paper_id = stripStr p.id
        ∧ ∃ st ∈ sourcesForPaper cfg p (stripStr p.id), r.source = st.1 := by
  intro r hr
  unfold preRowsForPaper at hr
  by_cases hpid : stripStr p.id = ""
  · rw [if_pos hpid] at hr
    simp at hr
  · rw [if_neg hpid] at hr
    obtain ⟨st, hst, hr2⟩ := List.mem_flatMap.mp hr
    obtain ⟨h1, h2⟩ := preRowsForSource_fields cfg (stripStr p.id) st.1 st.2 r hr2
    exact ⟨h1, st, hst, h2⟩

theorem preRowsForPaper_full_text_mem (cfg : IngestCfg) (p : PaperInput)
    (hpid : stripStr p.id ≠ "") (hc : stripStr p.content ≠ "") :
    ∃ r ∈ preRowsForPaper cfg p, r.source = "full_text" := by
  have hsrc := sourcesForPaper_full_text cfg p (stripStr p.id) hc
  have hchunks : chunkStr cfg (stripStr p.content) ≠ [] := by
    unfold chunkStr
    intro hcon
    have hdata : chunk_text (stripStr p.content).data cfg.chunkMaxTokens
        cfg.chunkOverlapTokens = [] := List.map_eq_nil_iff.mp hcon
    apply chunk_text_ne_nil (stripStr p.content).data cfg.chunkMaxTokens
      cfg.chunkOverlapTokens ?_ hdata
    show stripChars (stripStr p.content).data ≠ []
    have hd : (stripStr p.content).data = stripChars p.content.data := rfl
    rw [hd, stripChars_idem]
    intro h0
    apply hc
    show String.mk (stripChars p.content.data) = ""
    rw [h0]
  have hrows : preRowsForSource cfg (stripStr p.id) "full_text" (stripStr p.content) ≠ [] := by
    unfold preRowsForSource
    intro hcon
    rw [List.map_eq_nil_iff] at hcon
    have : chunkStr cfg (stripStr p.content) = [] := by
      have := congrArg List.length hcon
      simp only [List.enum_length, List.length_nil] at this
      exact List.length_eq_zero.mp this
    exact hchunks this
  obtain ⟨r, hrmem⟩ := List.exists_mem_of_ne_nil _ hrows
  refine ⟨r, ?_, (preRowsForSource_fields cfg (stripStr p.id) "full_text"
    (stripStr p.content) r hrmem).2⟩
  unfold preRowsForPaper
  rw [if_neg hpid]
  exact List.mem_flatMap.mpr ⟨("full_text", stripStr p.content), hsrc, hrmem⟩

theorem foldl_delete_subset (cfg : IngestCfg) :
    ∀ (papers : List PaperInput) (tbl : List ChunkRow),
      ∀ r ∈ papers.foldl (deleteChunksForPaper cfg) tbl, r ∈ tbl := by
  intro papers
  induction papers with
  | nil => intro tbl r hr; exact hr
  | cons p rest ih =>
    intro tbl r hr
    have h2 := ih (deleteChunksForPaper cfg tbl p) r hr
    unfold deleteChunksForPaper at h2
    split at h2
    · exact h2
    · exact List.mem_of_mem_filter h2

theorem foldl_delete_nil (cfg : IngestCfg) :
    ∀ papers : List PaperInput,
      papers.foldl (deleteChunksForPaper cfg) ([] : List ChunkRow) = [] := by
  intro papers
  induction papers with
  | nil => rfl
  | cons p rest ih =>
    show rest.foldl _ (deleteChunksForPaper cfg [] p) = []
    have hz : deleteChunksForPaper cfg [] p = [] := by
      unfold deleteChunksForPaper
      split <;> rfl
    rw [hz]
    exact ih

theorem chunkDeleted_not_full_text (cfg : IngestCfg) (p : PaperInput)
    (hc : stripStr p.content = "") :
    ∀ r : ChunkRow, r.source = "full_text" → ¬ chunkDeleted cfg p r := by
  intro r hsrc hdel
  obtain ⟨hid, hrest⟩ := hdel
  rcases hrest with hcon | hsrcs
  · exact hcon hc
  · rcases hsrcs with h | h | h | h | h | h
    · rw [hsrc] at h; exact absurd h (by decide)
    · rw [hsrc] at h; exact absurd h (by decide)
    · rw [hsrc] at h; exact absurd h (by decide)
    · obtain ⟨-, -, -, hx⟩ := h
      rw [hsrc, isReviewSource_full_text] at hx
      exact absurd hx (by decide)
    · rw [hsrc] at h; exact absurd h.2 (by decide)
    · rw [hsrc] at h; exact absurd h.2 (by decide)

/-- Claim C1.  Re-ingesting a paper without `content` preserves every
previously stored `full_text` chunk of that paper, deletes exactly the
selective source categories (always `meta`, `title_abstract`, `tldr`),
and appends the chunks re-derived from the new record; with `content`
supplied, all of the paper's stored chunks are deleted before the
re-derived chunks are appended.  `emb` total (every embedding succeeds)
keeps every re-derived chunk. -/
theorem ingest_selective_delete (cfg : IngestCfg) (emb : String → Vec)
    (tbl : List ChunkRow) (p : PaperInput)
    (hemb : ∀ s, emb s ≠ []) (hpid : stripStr p.id ≠ "") :
    (stripStr p.content = "" →
      (∀ r ∈ tbl, r.paper_id = stripStr p.id → r.source = "full_text" →
          r ∈ ingestChunksPhase cfg emb tbl [p])
      ∧ ingestChunksPhase cfg emb tbl [p]
          = tbl.filter (fun r => ¬ chunkDeleted cfg p r)
            ++ (preRowsForPaper cfg p).map (fun r => withVector r (emb r.text))
      ∧ (∀ r : ChunkRow, r.paper_id = stripStr p.id →
          (r.source = "meta" ∨ r.source = "title_abstract" ∨ r.source = "tldr") →
          chunkDeleted cfg p r)
      ∧ (∀ r : ChunkRow, r.source = "full_text" → ¬ chunkDeleted cfg p r))
    ∧ (stripStr p.content ≠ "" →
        ingestChunksPhase cfg emb tbl [p]
          = tbl.filter (fun r => r.paper_id ≠ stripStr p.id)
            ++ (preRowsForPaper cfg p).map (fun r => withVector r (emb r.text))) := by
  have h1 : ingestChunksPhase cfg emb tbl [p]
      = tbl.filter (fun r => ¬ chunkDeleted cfg p r)
        ++ (preRowsForPaper cfg p).map (fun r => withVector r (emb r.text)) := by
    unfold ingestChunksPhase
    simp only [List.foldl_cons, List.foldl_nil, List.flatMap_cons, List.flatMap_nil,
      List.append_nil]
    rw [embedRows_of_total emb hemb]
    unfold deleteChunksForPaper
    rw [if_neg hpid]
  constructor
  · intro hc
    refine ⟨?_, h1, ?_, chunkDeleted_not_full_text cfg p hc⟩
    · intro r hr hrid hrsrc
      rw [h1]
      refine List.mem_append.mpr (Or.inl (List.mem_filter.mpr ⟨hr, ?_⟩))
      have hnd := chunkDeleted_not_full_text cfg p hc r hrsrc
      simpa using hnd
    · intro r hrid hsrc
      refine ⟨hrid, Or.inr ?_⟩
      rcases hsrc with h | h | h
      · exact Or.inl h
      · exact Or.inr (Or.inl h)
      · exact Or.inr (Or.inr (Or.inl h))
  · intro hc
    rw [h1]
    congr 1
    apply List.filter_congr
    intro r hr
    simp only [decide_eq_decide]
    unfold chunkDeleted
    simp [hc]

def embC : String → Vec := fun _ => [1]

def cfgC : IngestCfg :=
  { ingestReviews := true, maxReviewsPerPaper := 10, chunkMaxTokens := 350,
    chunkOverlapTokens := 60, replaceEmptyReviews := false }

def ftRow : ChunkRow :=
  { chunk_id := "p1::full_text::0", paper_id := "p1", source := "full_text",
    chunk_index := 0, text := "body", vector := [1] }

def pMetaOnly : PaperInput := { id := "p1", title := "T", abstract := "A" }

theorem ingest_selective_delete_witness :
    (∀ r ∈ [ftRow], r.paper_id = stripStr (PaperInput.id pMetaOnly) → r.source = "full_text" →
        r ∈ ingestChunksPhase cfgC embC [ftRow] [pMetaOnly])
    ∧ ingestChunksPhase cfgC embC [ftRow] [pMetaOnly]
        = [ftRow].filter (fun r => ¬ chunkDeleted cfgC pMetaOnly r)
          ++ (preRowsForPaper cfgC pMetaOnly).map (fun r => withVector r (embC r.text))
    ∧ (∀ r : ChunkRow, r.paper_id = stripStr (PaperInput.id pMetaOnly) →
        (r.source = "meta" ∨ r.source = "title_abstract" ∨ r.source = "tldr") →
        chunkDeleted cfgC pMetaOnly r)
    ∧ (∀ r : ChunkRow, r.source = "full_text" → ¬ chunkDeleted cfgC pMetaOnly r) :=
  (ingest_selective_delete cfgC embC [ftRow] pMetaOnly (fun _ => List.cons_ne_nil 1 [])
    (by decide)).1 (by decide)

/-- Claim C3.  One ingest call upserts every paper's metadata and reviews
into the metadata store first and unconditionally — the resulting
metadata state is exactly the fold of the upserts and does not depend on
the embedding oracle at all (an embedding failure, an empty vector,
cannot abort it or change it) — and any row newly written to the
`papers` or `chunks` vector table carries a non-empty vector. -/
theorem ingest_metadata_unconditional (cfg : IngestCfg) (emb emb2 : String → Vec)
    (kb : KB) (papers : List PaperInput) :
    (ingest_data cfg emb kb papers).meta
        = papers.foldl (upsert_paper_and_reviews cfg.replaceEmptyReviews) kb.meta
    ∧ (ingest_data cfg emb kb papers).meta = (ingest_data cfg emb2 kb papers).meta
    ∧ (∀ r ∈ (ingest_data cfg emb kb papers).papersVec, r ∈ kb.papersVec ∨ r.vector ≠ [])
    ∧ (∀ r ∈ (ingest_data cfg emb kb papers).chunksVec, r ∈ kb.chunksVec ∨ r.vector ≠ []) := by
  by_cases h0 : papers = []
  · subst h0
    exact ⟨rfl, rfl, fun r hr => Or.inl hr, fun r hr => Or.inl hr⟩
  · have hmeta : (ingest_data cfg emb kb papers).meta
        = papers.foldl (upsert_paper_and_reviews cfg.replaceEmptyReviews) kb.meta := by
      simp only [ingest_data, if_neg h0]
    have hmeta2 : (ingest_data cfg emb2 kb papers).meta
        = papers.foldl (upsert_paper_and_reviews cfg.replaceEmptyReviews) kb.meta := by
      simp only [ingest_data, if_neg h0]
    refine ⟨hmeta, by rw [hmeta, hmeta2], ?_, ?_⟩
    · intro r hr
      have hr2 : r ∈ (if paperRowsFor emb papers = [] then kb.papersVec
          else kb.papersVec.filter
              (fun q => ¬ q.id ∈ (paperRowsFor emb papers).map PaperVecRow.id)
            ++ paperRowsFor emb papers) := by
        simpa only [ingest_data, if_neg h0] using hr
      split at hr2
      · exact Or.inl hr2
      · rcases List.mem_append.mp hr2 with h | h
        · exact Or.inl (List.mem_of_mem_filter h)
        · right
          unfold paperRowsFor at h
          obtain ⟨p, hp, heq⟩ := List.mem_filterMap.mp h
          split at heq
          · simp at heq
          · split at heq
            · simp at heq
            · split at heq
              · simp at heq
              · rename_i hne'
                injection heq with h3
                rw [← h3]
                exact hne'
    · intro r hr
      have hr2 : r ∈ ingestChunksPhase cfg emb kb.chunksVec papers := by
        simpa only [ingest_data, if_neg h0] using hr
      unfold ingestChunksPhase at hr2
      rcases List.mem_append.mp hr2 with h | h
      · exact Or.inl (foldl_delete_subset cfg papers kb.chunksVec r h)
      · right
        unfold embedRows at h
        obtain ⟨pre, hpre, heq⟩ := List.mem_filterMap.mp h
        split at heq
        · simp at heq
        · rename_i hne'
          injection heq with h3
          rw [← h3]
          exact hne'

def kb0 : KB := ⟨metaEmpty, [], []⟩

def pFull : PaperInput := { id := "pf", title := "T", content := "some body text" }

def pNoFull : PaperInput := { id := "pn", title := "U" }

def ftRowF : ChunkRow := ⟨"pf::full_text::0", "pf", "full_text", 0, "some body text", [1]⟩

theorem ingest_metadata_unconditional_witness :
    (ingest_data cfgC embC kb0 [pFull]).meta
        = [pFull].foldl (upsert_paper_and_reviews (IngestCfg.replaceEmptyReviews cfgC))
            (KB.meta kb0)
    ∧ (ftRowF ∈ KB.chunksVec kb0 ∨ ChunkRow.vector ftRowF ≠ []) := by
  have h := ingest_metadata_unconditional cfgC embC embC kb0 [pFull]
  refine ⟨h.1, h.2.2.2 ftRowF ?_⟩
  decide

/-- Claim C7.  Starting from an empty chunks table and ingesting papers
with distinct non-empty ids, all embeddings succeeding, an id is in
`get_paper_ids_with_content` exactly when its ingest supplied non-empty
`content` — equivalently, exactly when at least one `full_text`-sourced
chunk for that paper was committed to the table. -/
theorem full_text_index_tracking (cfg : IngestCfg) (emb : String → Vec)
    (papers : List PaperInput)
    (hemb : ∀ s, emb s ≠ [])
    (hids : ∀ p ∈ papers, stripStr p.id ≠ "")
    (hdistinct : (papers.map (fun p => stripStr p.id)).Nodup) :
    ∀ pid,
      (pid ∈ get_paper_ids_with_content (ingestChunksPhase cfg emb [] papers)
        ↔ ∃ p ∈ papers, stripStr p.id = pid ∧ stripStr p.content ≠ "")
      ∧ (pid ∈ get_paper_ids_with_content (ingestChunksPhase cfg emb [] papers)
        ↔ ∃ r ∈ ingestChunksPhase cfg emb [] papers,
            r.paper_id = pid ∧ r.source = "full_text") := by
  intro pid
  have hphase : ingestChunksPhase cfg emb [] papers
      = (papers.flatMap (preRowsForPaper cfg)).map (fun r => withVector r (emb r.text)) := by
    unfold ingestChunksPhase
    rw [foldl_delete_nil, List.nil_append, embedRows_of_total emb hemb]
  have hset : pid ∈ get_paper_ids_with_content (ingestChunksPhase cfg emb [] papers)
      ↔ ∃ r ∈ ingestChunksPhase cfg emb [] papers,
          r.paper_id = pid ∧ r.source = "full_text" := by
    unfold get_paper_ids_with_content
    rw [List.mem_dedup]
    constructor
    · intro h
      obtain ⟨r, hr, hrid⟩ := List.mem_map.mp h
      have hf := List.mem_filter.mp hr
      exact ⟨r, hf.1, hrid, by simpa using hf.2⟩
    · rintro ⟨r, hr, hrid, hrsrc⟩
      exact List.mem_map.mpr ⟨r, List.mem_filter.mpr ⟨hr, by simpa using hrsrc⟩, hrid⟩
  refine ⟨?_, hset⟩
  rw [hset]
  constructor
  · rintro ⟨r, hr, hrid, hrsrc⟩
    rw [hphase] at hr
    obtain ⟨pre, hpre, hpreq⟩ := List.mem_map.mp hr
    obtain ⟨p, hp, hpre2⟩ := List.mem_flatMap.mp hpre
    obtain ⟨hprid, st, hst, hpsrc⟩ := preRowsForPaper_fields cfg p pre hpre2
    subst hpreq
    refine ⟨p, hp, ?_, ?_⟩
    · have hrid2 : pre.paper_id = pid := hrid
      rw [← hprid, hrid2]
    · apply sourcesForPaper_full_text_only cfg p (stripStr p.id) st hst
      rw [← hpsrc]
      exact hrsrc
  · rintro ⟨p, hp, hpid, hc⟩
    obtain ⟨pre, hpre, hpsrc⟩ := preRowsForPaper_full_text_mem cfg p (hids p hp) hc
    refine ⟨withVector pre (emb pre.text), ?_, ?_, hpsrc⟩
    · rw [hphase]
      exact List.mem_map.mpr ⟨pre, List.mem_flatMap.mpr ⟨p, hp, hpre⟩, rfl⟩
    · show pre.paper_id = pid
      rw [(preRowsForPaper_fields cfg p pre hpre).1, hpid]

theorem full_text_index_tracking_witness :
    ("pf" ∈ get_paper_ids_with_content (ingestChunksPhase cfgC embC [] [pFull, pNoFull])
      ↔ ∃ p ∈ [pFull, pNoFull], stripStr p.id = "pf" ∧ stripStr p.content ≠ "")
    ∧ ("pf" ∈ get_paper_ids_with_content (ingestChunksPhase cfgC embC [] [pFull, pNoFull])
      ↔ ∃ r ∈ ingestChunksPhase cfgC embC [] [pFull, pNoFull],
          r.paper_id = "pf" ∧ r.source = "full_text") :=
  full_text_index_tracking cfgC embC [pFull, pNoFull] (fun _ => List.cons_ne_nil 1 [])
    (by decide) (by decide) "pf"

/-! ## Vector-index tables at schema level
(storage.py lines 290-397 for `papers`, lines 692-696 for `chunks`)

A LanceDB table is a pinned Arrow schema plus rows: `dim` is the
fixed `list_size` of the vector column (`none` when nothing pins it),
`yearNull` whether the year column was inferred as the Arrow null type.
`Table.add` raises an Arrow cast error for rows that do not fit the
pinned schema — the code's own comment (storage.py lines 307-308) cites
exactly that failure mode (`Unsupported cast from int64 to null`), and
the rebuild branch exists to avoid it. -/

structure VTable where
  yearNull : Bool
  dim : Option Nat
  rows : List PaperVecRow
deriving DecidableEq

/-- LanceDB `Table.add` on the papers table: rows must fit the pinned
vector dimension, else an Arrow cast error is raised. -/
def addRowsP (t : VTable) (rows : List PaperVecRow) : Except String VTable :=
  match t.dim with
  | some d =>
    if rows.all (fun r => r.vector.length = d) then
      .ok { t with rows := t.rows ++ rows }
    else .error "Arrow cast: vector dimension mismatch"
  | none => .error "Arrow cast: vector column has no list type"

/-- The papers-table write of `ingest_data` (storage.py lines 290-397):
on schema mismatch (null-typed year column, or differing positive vector
dimensions) the table is rebuilt — existing rows with the wrong id are
kept only when their vector has the expected dimension, the new rows are
unioned in, and the table is recreated with an explicit schema pinning
the vector dimension; otherwise the new ids are deleted and the rows
appended. -/
def writePapersTable (tOpt : Option VTable) (paperRows : List PaperVecRow) :
    Except String (Option VTable) :=
  match paperRows with
  | [] => .ok tOpt
  | r0 :: _ =>
    match tOpt with
    | some t =>
      let existingDim : Int := match t.dim with | some d => (d : Int) | none => -1
      if t.yearNull = true
          ∨ (0 < existingDim ∧ 0 < r0.vector.length
              ∧ existingDim ≠ (r0.vector.length : Int)) then
        let migrated := (t.rows.filter (fun r =>
            ¬ r.id ∈ paperRows.map PaperVecRow.id
              ∧ (r0.vector.length = 0 ∨ r.vector.length = r0.vector.length))).map
          (fun r => { r with year := none })
        .ok (some
          { yearNull := false
            dim := some r0.vector.length
            rows := migrated ++ paperRows.filter (fun r =>
              r0.vector.length = 0 ∨ r.vector.length = r0.vector.length) })
      else
        (addRowsP { t with rows := t.rows.filter (fun r =>
            ¬ r.id ∈ paperRows.map PaperVecRow.id) } paperRows).map some
    | none =>
      .ok (some
        { yearNull := false
          dim := some r0.vector.length
          rows := paperRows })

structure CTable where
  dim : Option Nat
  rows : List ChunkRow
deriving DecidableEq

def addRowsC (t : CTable) (rows : List ChunkRow) : Except String CTable :=
  match t.dim with
  | some d =>
    if rows.all (fun r => r.vector.length = d) then
      .ok { t with rows := t.rows ++ rows }
    else .error "Arrow cast: vector dimension mismatch"
  | none => .error "Arrow cast: vector column has no list type"

/-- Schema inference of `create_table(data=rows)` without explicit schema:
the dimension comes from the first row. -/
def inferDimC (rows : List ChunkRow) : Option Nat :=
  match rows with
  | [] => none
  | r :: _ => some r.vector.length

/-- The chunks-table write of `ingest_data` (storage.py lines 692-696):
a plain `add` when the table exists — no dimension check, no rebuild, no
explicit schema on creation. -/
def writeChunksTable (tOpt : Option CTable) (rows : List ChunkRow) :
    Except String (Option CTable) :=
  match rows with
  | [] => .ok tOpt
  | _ :: _ =>
    match tOpt with
    | some t => (addRowsC t rows).map some
    | none => .ok (some { dim := inferDimC rows, rows := rows })

def exOk {ε α : Type _} : Except ε α → Bool
  | .ok _ => true
  | .error _ => false

def ctRowW : ChunkRow := ⟨"p::full_text::0", "p", "full_text", 0, "t", [1, 2]⟩

def ctW : CTable := ⟨some 2, [ctRowW]⟩

def crW : ChunkRow := ⟨"q::full_text::0", "q", "full_text", 0, "u", [1, 2, 3]⟩

/-- Counterexample to claim C2 as stated: the `chunks` vector table does
not rebuild on a dimension change — writing a 3-dimensional row into a
table pinned at dimension 2 simply fails (Arrow cast on `add`), the old
rows are not migrated and the table keeps its old dimension.  Only the
`papers` table implements the rebuild. -/
theorem chunks_table_no_rebuild :
    CTable.dim ctW = some 2 ∧ (ChunkRow.vector crW).length = 3 ∧
    exOk (writeChunksTable (some ctW) [crW]) = false := by decide

/-- Claim C2 (amended: the rebuild policy holds for the `papers` table;
the `chunks` table write has no such rebuild, see the counterexample).
Writing a non-empty batch of uniformly `e`-dimensional rows into an
existing papers table pinned at dimension `d` (all stored rows
`d`-dimensional) always succeeds; afterwards the table is pinned at `e`
and every row has dimension `e`; when `d ≠ e` the old rows are all
discarded and exactly the new rows remain. -/
theorem papers_table_rebuild (t : VTable) (rows : List PaperVecRow) (d e : Nat)
    (hdim : t.dim = some d) (hd : 0 < d) (he : 0 < e)
    (hrows : rows ≠ []) (hall : ∀ r ∈ rows, r.vector.length = e)
    (hold : ∀ r ∈ t.rows, r.vector.length = d) :
    ∃ t', writePapersTable (some t) rows = .ok (some t')
      ∧ t'.dim = some e
      ∧ (∀ r ∈ t'.rows, r.vector.length = e)
      ∧ (d ≠ e → t'.rows = rows) := by
  obtain ⟨r0, rest, hr0⟩ : ∃ r0 rest, rows = r0 :: rest := by
    cases rows with
    | nil => exact absurd rfl hrows
    | cons a b => exact ⟨a, b, rfl⟩
  have hr0e : r0.vector.length = e := hall r0 (by rw [hr0]; exact List.mem_cons_self _ _)
  subst hr0
  obtain ⟨yn, dopt, trows⟩ := t
  have hdopt : dopt = some d := by simpa using hdim
  subst hdopt
  have hold2 : ∀ r ∈ trows, r.vector.length = d := hold
  simp only [writePapersTable]
  split
  · -- rebuild branch
    rename_i hcond
    refine ⟨_, rfl, ?_, ?_, ?_⟩
    · show some r0.vector.length = some e
      rw [hr0e]
    · intro r hr
      rcases List.mem_append.mp hr with h | h
      · obtain ⟨q, hq, hqe⟩ := List.mem_map.mp h
        have hq3 := List.mem_filter.mp hq |>.2
        simp only [decide_eq_true_eq, Bool.and_eq_true] at hq3
        rw [← hqe]
        show q.vector.length = e
        rcases hq3.2 with h0 | h0
        · omega
        · rw [h0, hr0e]
      · exact hall r (List.mem_of_mem_filter h)
    · intro hne
      have hmig : (trows.filter (fun r =>
          ¬ r.id ∈ (r0 :: rest).map PaperVecRow.id
            ∧ (r0.vector.length = 0 ∨ r.vector.length = r0.vector.length))) = [] := by
        apply List.filter_eq_nil_iff.mpr
        intro r hr
        simp only [decide_eq_true_eq, Bool.and_eq_true, not_and]
        intro _
        rw [hr0e, hold2 r hr]
        omega
      have hnew : (r0 :: rest).filter (fun r =>
          r0.vector.length = 0 ∨ r.vector.length = r0.vector.length) = r0 :: rest := by
        apply List.filter_eq_self.mpr
        intro a ha
        simp only [decide_eq_true_eq]
        right
        rw [hall a ha, hr0e]
      simp only [hmig, hnew, List.map_nil, List.nil_append]
  · -- delete-then-add branch
    rename_i hcond
    have hde : d = e := by
      rcases Decidable.em (d = e) with h | h
      · exact h
      · exfalso
        apply hcond
        refine Or.inr ⟨by exact_mod_cast hd, by rw [hr0e]; exact he, ?_⟩
        rw [hr0e]
        exact_mod_cast h
    have hcheck : (r0 :: rest).all (fun r => r.vector.length = d) = true := by
      rw [List.all_eq_true]
      intro r hr
      simp only [decide_eq_true_eq]
      rw [hall r hr, hde]
    have hadd : addRowsP
        { yearNull := yn
          dim := some d
          rows := trows.filter (fun r => ¬ r.id ∈ (r0 :: rest).map PaperVecRow.id) }
        (r0 :: rest)
        = .ok
          { yearNull := yn
            dim := some d
            rows := trows.filter (fun r => ¬ r.id ∈ (r0 :: rest).map PaperVecRow.id)
              ++ (r0 :: rest) } := by
      simp only [addRowsP]
      rw [if_pos hcheck]
    rw [hadd]
    refine ⟨_, rfl, ?_, ?_, ?_⟩
    · show some d = some e
      rw [hde]
    · intro r hr
      rcases List.mem_append.mp hr with h | h
      · rw [hold2 r (List.mem_of_mem_filter h), hde]
      · exact hall r h
    · intro hne
      exact absurd hde hne

def pvOldW : PaperVecRow := ⟨"old", "Ot", "Oa", none, none, [1, 2]⟩

def vtW : VTable := ⟨false, some 2, [pvOldW]⟩

def pvNewW : PaperVecRow := ⟨"new", "Nt", "Na", none, none, [1, 2, 3]⟩

theorem papers_table_rebuild_witness :
    ∃ t', writePapersTable (some vtW) [pvNewW] = .ok (some t')
      ∧ t'.dim = some 3
      ∧ (∀ r ∈ t'.rows, r.vector.length = 3)
      ∧ (2 ≠ 3 → t'.rows = [pvNewW]) :=
  papers_table_rebuild vtW [pvNewW] 2 3 rfl (by decide) (by decide) (by decide)
    (by decide) (by decide)

end Mujica
